import Mathlib

/-!
# Page-replacement simulator (`main.c`): embedding and verified properties

The C program replays a trace of memory accesses against a fixed table of
physical frames under one of four replacement policies (`fifo`, `lru`, `2a`,
anything else = random) and counts page faults and written-back pages.

Modelling conventions

* `Frame` mirrors the C struct field by field.  `unsigned` and `unsigned long`
  fields are naturals, the two `int` flags are integers.
* The `static` cursors of `fifo_replace` and `second_chance_replace` are
  explicit state (`Sim.next_frame`, `Sim.pointer`), both starting at `0`.
* `random()` is a stream `rnd : Nat → Nat`; `Sim.rand_calls` counts the calls
  made so far, so the `k`-th call returns `rnd k`.
* The array `frames` is a list with exactly `num_frames` entries, as allocated
  by `calloc(num_frames, sizeof(Frame))`.  Reading or writing outside the array
  and dividing by zero are undefined in C; the model returns `none` there.
* The three statistics counters are naturals.  `page_faults` and
  `pages_written` are `int` in C and `access_count` is `unsigned long`; a
  natural counter is the C variable as long as it does not exceed `INT_MAX`
  (`2^31 - 1`), respectively `ULONG_MAX` (`2^64 - 1`), and incrementing an
  `int` beyond `INT_MAX` is undefined in C.  Every theorem that states the
  value of an `int` counter after an increment therefore assumes that the
  counter is in that range (at most `INT_MAX` accesses replayed, or the counter
  below `INT_MAX` before the access) and shows that it stays in it
  (`run_pages_int_range`).
* `while` loops that have no syntactic bound carry an iteration budget; the
  theorems show which budget is enough and that a larger one changes nothing.
* The `page_table` array of lines 86-92 is never read or written by the
  access loop.  Its size `1 << (32 - calculate_s(page_size))` is undefined in
  C when the shift count is 31 or 32, that is for a page size below 4;
  `simulate` returns `none` there.  Both `calloc` calls are taken to succeed
  (on failure the program prints a message and exits before the loop).
* `fscanf` is library code: `fscanf_x_c` models the call of line 100 after the
  C standard, and after glibc where the standard leaves the outcome open (a
  number too large for the type, `0x` without a digit after it).  The theorems
  about runs take the list of parsed accesses (`run`); `simulate_loop` is the
  same loop reading the characters of the file.
-/

namespace PageSim

/-- The C struct `Frame` (lines 16-22 of `main.c`). -/
structure Frame where
  frame_number : Nat
  page_number : Nat
  modified : Int
  referenced : Int
  last_access : Nat
deriving DecidableEq, Repr

/-- One zero-initialised frame, as produced by `calloc`. -/
def zero_frame : Frame := ⟨0, 0, 0, 0, 0⟩

/-- Value of the C constant `ULONG_MAX` on an LP64 platform. -/
def ULONG_MAX : Nat := 2 ^ 64 - 1

/-- Value of the C constant `INT_MAX`: the largest value of the `int`
counters `page_faults` and `pages_written` (lines 94-95). -/
def INT_MAX : Nat := 2 ^ 31 - 1

/-- The loop of `calculate_s` (lines 27-30): `budget` bounds the number of
iterations, `s` is the running count. -/
def calculate_s_loop : Nat → Nat → Nat → Nat
  | 0, _, s => s
  | budget + 1, page_size, s =>
    if page_size > 1 then calculate_s_loop budget (page_size >>> 1) (s + 1) else s

/-- `calculate_s` (lines 25-32).  The value is halved at every iteration, so
`page_size` iterations are always enough (`calculate_s_loop_budget`). -/
def calculate_s (page_size : Nat) : Nat :=
  calculate_s_loop page_size page_size 0

/-- `fifo_replace` (lines 35-40): returns `(frame_to_replace, next_frame)`
where the second component is the new value of the static cursor. -/
def fifo_replace (_frames : List Frame) (num_frames : Nat) (next_frame : Nat) : Nat × Nat :=
  (next_frame, (next_frame + 1) % num_frames)

/-- The `for` loop of `lru_replace` (lines 47-52) over the frames that remain
to be visited; `i` is the index of the head of the list. -/
def lru_loop : List Frame → Nat → Nat → Nat → Nat
  | [], _, _, frame_to_replace => frame_to_replace
  | f :: fs, i, min_time, frame_to_replace =>
    if f.last_access < min_time then lru_loop fs (i + 1) f.last_access i
    else lru_loop fs (i + 1) min_time frame_to_replace

/-- `lru_replace` (lines 43-55). -/
def lru_replace (frames : List Frame) (num_frames : Nat) : Nat :=
  lru_loop (frames.take num_frames) 0 ULONG_MAX 0

/-- The `while (1)` loop of `second_chance_replace` (lines 61-69) with an
iteration budget.  The result is `(frame_to_replace, frames, pointer)`: the
victim, the frame table after the referenced bits were cleared and the new
value of the static cursor.  `none` stands for an exhausted budget or a read
outside the array. -/
def second_chance_scan : Nat → List Frame → Nat → Nat → Option (Nat × List Frame × Nat)
  | 0, _, _, _ => none
  | budget + 1, frames, num_frames, pointer =>
    match frames[pointer]? with
    | none => none
    | some f =>
      if f.referenced = 0 then
        some (pointer, frames, (pointer + 1) % num_frames)
      else
        second_chance_scan budget (frames.set pointer { f with referenced := 0 }) num_frames
          ((pointer + 1) % num_frames)

/-- `second_chance_replace` (lines 58-70).  `num_frames + 1` iterations are
enough whenever the cursor is inside the table (`second_chance_scan_budget`). -/
def second_chance_replace (frames : List Frame) (num_frames : Nat) (pointer : Nat) :
    Option (Nat × List Frame × Nat) :=
  second_chance_scan (num_frames + 1) frames num_frames pointer

/-- `random_replace` (lines 73-75); `r` is the value returned by `random()`. -/
def random_replace (r : Nat) (num_frames : Nat) : Nat :=
  r % num_frames

/-- The mutable state of one run of `simulate_memory_access`.  The counters
`page_faults` and `pages_written` (`int` in C) and `access_count`
(`unsigned long`) are naturals; they are the C variables while they are at
most `INT_MAX`, respectively `ULONG_MAX`. -/
structure Sim where
  frames : List Frame
  next_frame : Nat
  pointer : Nat
  rand_calls : Nat
  page_faults : Nat
  pages_written : Nat
  access_count : Nat
deriving DecidableEq, Repr

/-- State before the first access (lines 80, 94-96 and the two `static`
initialisers): `calloc` zeroes every frame. -/
def init (num_frames : Nat) : Sim :=
  { frames := List.replicate num_frames zero_frame
    next_frame := 0, pointer := 0, rand_calls := 0
    page_faults := 0, pages_written := 0, access_count := 0 }

/-- The frame scan of lines 106-116.  `some frames'` means `found = 1` and
gives the table after the hit was recorded in the first matching frame;
`none` means `found = 0`. -/
def probe : List Frame → Nat → Nat → Char → Option (List Frame)
  | [], _, _, _ => none
  | f :: fs, page, access_count, rw_char =>
    if f.page_number = page then
      some ({ f with last_access := access_count, referenced := 1,
                     modified := if rw_char = 'W' then 1 else f.modified } :: fs)
    else
      (probe fs page access_count rw_char).map (fun fs' => f :: fs')

/-- The policy dispatch of lines 123-131.  Returns the victim index and the
state after the policy function ran (cursor moved, referenced bits cleared,
one more random number consumed). -/
def select_victim (alg : String) (rnd : Nat → Nat) (num_frames : Nat) (st : Sim) :
    Option (Nat × Sim) :=
  if alg = "fifo" then
    if num_frames = 0 then none
    else
      let r := fifo_replace st.frames num_frames st.next_frame
      some (r.1, { st with next_frame := r.2 })
  else if alg = "lru" then
    some (lru_replace st.frames num_frames, st)
  else if alg = "2a" then
    match second_chance_replace st.frames num_frames st.pointer with
    | none => none
    | some (v, frames', pointer') => some (v, { st with frames := frames', pointer := pointer' })
  else
    if num_frames = 0 then none
    else some (random_replace (rnd st.rand_calls) num_frames,
               { st with rand_calls := st.rand_calls + 1 })

/-- The body of the access loop for an already translated page number
(lines 101 and 103-143).  The increments of lines 101, 120 and 135 are
additions of naturals: they are the C increments when `page_faults` and
`pages_written` are below `INT_MAX` and `access_count` is below `ULONG_MAX`
before the access. -/
def access_page (alg : String) (rnd : Nat → Nat) (num_frames : Nat) (st : Sim)
    (page : Nat) (rw_char : Char) : Option Sim :=
  let access_count := st.access_count + 1
  match probe st.frames page access_count rw_char with
  | some frames' => some { st with frames := frames', access_count := access_count }
  | none =>
    match select_victim alg rnd num_frames st with
    | none => none
    | some (frame_to_replace, st1) =>
      match st1.frames[frame_to_replace]? with
      | none => none
      | some f =>
        some { st1 with
          frames := st1.frames.set frame_to_replace
            { f with page_number := page, last_access := access_count,
                     modified := if rw_char = 'W' then 1 else 0, referenced := 1 }
          page_faults := st.page_faults + 1
          pages_written := if f.modified ≠ 0 then st.pages_written + 1 else st.pages_written
          access_count := access_count }

/-- The page number of an address (line 102). -/
def page_of (addr : Nat) (page_size : Nat) : Nat :=
  addr >>> calculate_s page_size

/-- One iteration of the access loop (lines 101-143) for a parsed access. -/
def access (alg : String) (rnd : Nat → Nat) (page_size num_frames : Nat) (st : Sim)
    (addr : Nat) (rw_char : Char) : Option Sim :=
  access_page alg rnd num_frames st (page_of addr page_size) rw_char

/-- The access loop over a list of page-level accesses. -/
def run_pages (alg : String) (rnd : Nat → Nat) (num_frames : Nat) :
    Sim → List (Nat × Char) → Option Sim
  | st, [] => some st
  | st, (page, rw_char) :: rest =>
    match access_page alg rnd num_frames st page rw_char with
    | none => none
    | some st' => run_pages alg rnd num_frames st' rest

/-- The access loop (lines 100-144) over the accesses `fscanf` delivered. -/
def run (alg : String) (rnd : Nat → Nat) (page_size num_frames : Nat) (st : Sim)
    (trace : List (Nat × Char)) : Option Sim :=
  run_pages alg rnd num_frames st (trace.map (fun a => (page_of a.1 page_size, a.2)))

/-- `simulate_memory_access` (lines 78-144) on a parsed trace: the frame count
is `mem_size / page_size` (line 79), undefined for a page size of `0`; the
shift `1 << (32 - calculate_s(page_size))` of line 86 is undefined for a shift
count of 31 or more.  Both allocations are taken to succeed. -/
def simulate (alg : String) (rnd : Nat → Nat) (page_size mem_size : Nat)
    (trace : List (Nat × Char)) : Option Sim :=
  if page_size = 0 then none
  else if 31 ≤ 32 - calculate_s page_size then none
  else run alg rnd page_size (mem_size / page_size) (init (mem_size / page_size)) trace

/-- Whether the frame scan of line 107 finds `page`: some frame has
`page_number == page`. -/
def resident (frames : List Frame) (page : Nat) : Bool :=
  frames.any (fun f => f.page_number = page)

/-- Number of accesses of a page-level trace for which the frame scan found a
matching frame, counted along the run that starts in `st`. -/
def hits_pages (alg : String) (rnd : Nat → Nat) (num_frames : Nat) :
    Sim → List (Nat × Char) → Nat
  | _, [] => 0
  | st, (page, rw_char) :: rest =>
    (if resident st.frames page then 1 else 0) +
      match access_page alg rnd num_frames st page rw_char with
      | none => 0
      | some st' => hits_pages alg rnd num_frames st' rest

/-- Number of hits of a run over parsed accesses. -/
def hits (alg : String) (rnd : Nat → Nat) (page_size num_frames : Nat) (st : Sim)
    (trace : List (Nat × Char)) : Nat :=
  hits_pages alg rnd num_frames st (trace.map (fun a => (page_of a.1 page_size, a.2)))

/-- Shape of the state the engine maintains: the table has `num_frames`
entries and both cursors point into it (so `num_frames ≥ 1`). -/
def Sim.ok (num_frames : Nat) (st : Sim) : Prop :=
  st.frames.length = num_frames ∧ st.next_frame < num_frames ∧ st.pointer < num_frames

/-- Position (counted from `i`) of the last occurrence of `p` in a list of
page numbers, `acc` if there is none. -/
def last_pos_from : List Nat → Nat → Nat → Nat → Nat
  | [], _, _, acc => acc
  | q :: qs, p, i, acc => last_pos_from qs p (i + 1) (if q = p then i else acc)

/-- The 1-based position of the most recent access to page `p` in a list of
accessed page numbers; `0` when `p` was never accessed. -/
def last_pos (pages : List Nat) (p : Nat) : Nat :=
  last_pos_from pages p 1 0

/-- The `last_access` stamp of frame `j` (`0` outside the table). -/
def stamp (frames : List Frame) (j : Nat) : Nat :=
  match frames[j]? with
  | some f => f.last_access
  | none => 0

/-- The C library predicate `isspace` in the "C" locale. -/
def isspace (c : Char) : Bool :=
  c = ' ' || c = '\t' || c = '\n' || c = '\x0b' || c = '\x0c' || c = '\r'

/-- Value of a hexadecimal digit. -/
def hex_digit (c : Char) : Option Nat :=
  if '0' ≤ c ∧ c ≤ '9' then some (c.toNat - '0'.toNat)
  else if 'a' ≤ c ∧ c ≤ 'f' then some (c.toNat - 'a'.toNat + 10)
  else if 'A' ≤ c ∧ c ≤ 'F' then some (c.toNat - 'A'.toNat + 10)
  else none

/-- White space is skipped by `%x` and by a blank in the format. -/
def skip_space : List Char → List Char
  | [] => []
  | c :: cs => if isspace c then skip_space cs else c :: cs

/-- Reads hexadecimal digits as long as there are any. -/
def scan_digits : List Char → Nat → Nat × List Char
  | [], acc => (acc, [])
  | c :: cs, acc =>
    match hex_digit c with
    | some d => scan_digits cs (acc * 16 + d)
    | none => (acc, c :: cs)

/-- Result of one conversion of `fscanf`. -/
inductive Conv where
  | input_failure : Conv
  | matching_failure (rest : List Char) : Conv
  | ok (value : Nat) (rest : List Char) : Conv
deriving DecidableEq, Repr

/-- The digits of a `%x` item, after the optional sign: an optional `0x`
prefix and hexadecimal digits.  Without the prefix at least one digit is
needed, and the offending character stays unread on a matching failure.  After
`0x` glibc accepts an empty digit string and converts `0`, the `x` being
consumed. -/
def scan_x_body : List Char → Conv
  | '0' :: x :: cs =>
    if x = 'x' ∨ x = 'X' then
      let r := scan_digits cs 0
      Conv.ok r.1 r.2
    else
      let r := scan_digits ('0' :: x :: cs) 0
      Conv.ok r.1 r.2
  | c :: cs =>
    if (hex_digit c).isSome then
      let r := scan_digits (c :: cs) 0
      Conv.ok r.1 r.2
    else Conv.matching_failure (c :: cs)
  | [] => Conv.matching_failure []

/-- The value `%x` stores into an `unsigned` (32 bits) for the digits value
`v`: as glibc does, the number is converted like `strtoul` (an
`unsigned long`, `ULONG_MAX` when it does not fit, negated modulo `2^64` after
a minus sign) and then truncated to 32 bits. -/
def store_unsigned (negative : Bool) (v : Nat) : Nat :=
  if v > ULONG_MAX then ULONG_MAX % 2 ^ 32
  else if negative then (2 ^ 64 - v) % 2 ^ 64 % 2 ^ 32
  else v % 2 ^ 32

/-- The conversion `%x` into an `unsigned` (32 bits): skip white space, fail
with an input failure at end of file, else read an optionally signed
hexadecimal number. -/
def scan_x (input : List Char) : Conv :=
  match skip_space input with
  | [] => Conv.input_failure
  | '-' :: cs =>
    match scan_x_body cs with
    | Conv.ok v rest => Conv.ok (store_unsigned true v) rest
    | r => r
  | '+' :: cs =>
    match scan_x_body cs with
    | Conv.ok v rest => Conv.ok (store_unsigned false v) rest
    | r => r
  | cs =>
    match scan_x_body cs with
    | Conv.ok v rest => Conv.ok (store_unsigned false v) rest
    | r => r

/-- The C constant `EOF`. -/
def EOF : Int := -1

/-- Model of `fscanf(file, "%x %c", &addr, &rw_char)` after the C standard
(7.21.6.2) and glibc: the result is `(return value, unread input, addr, rw_char)`.  The
return value is `EOF` when the input ends before the first conversion, else
the number of items assigned; a variable that was not assigned keeps its old
value. -/
def fscanf_x_c (input : List Char) (addr : Nat) (rw_char : Char) :
    Int × List Char × Nat × Char :=
  match scan_x input with
  | Conv.input_failure => (EOF, [], addr, rw_char)
  | Conv.matching_failure rest => (0, rest, addr, rw_char)
  | Conv.ok v rest =>
    match skip_space rest with
    | [] => (1, [], v, rw_char)
    | c :: cs => (2, cs, v, c)

/-- What a run of the access loop over a file can come to. -/
inductive Outcome where
  | reported (st : Sim) : Outcome
  | running (st : Sim) : Outcome
  | undefined : Outcome
deriving DecidableEq, Repr

/-- The access loop of lines 100-144 reading the trace file itself: it goes on
while `fscanf` returns something other than `EOF`.  `reported st` means the
loop was left and the statistics of `st` are printed; `running st` means the
iteration budget ran out with the loop still going, `st` being the state
reached; `undefined` is undefined behaviour.  `addr` and `rw_char` are the
two C variables `fscanf` assigns to. -/
def simulate_loop (alg : String) (rnd : Nat → Nat) (page_size num_frames : Nat) :
    Nat → List Char → Nat → Char → Sim → Outcome
  | 0, _, _, _, st => Outcome.running st
  | budget + 1, input, addr, rw_char, st =>
    match fscanf_x_c input addr rw_char with
    | (ret, rest, addr', rw_char') =>
      if ret = EOF then Outcome.reported st
      else
        match access alg rnd page_size num_frames st addr' rw_char' with
        | none => Outcome.undefined
        | some st' => simulate_loop alg rnd page_size num_frames budget rest addr' rw_char' st'

/-- Clearing the referenced bit of a frame (line 67). -/
def clear_referenced (f : Frame) : Frame :=
  { f with referenced := 0 }

/-- The table `frames'` comes from `frames` by clearing referenced bits that
were set, and by nothing else. -/
def only_cleared (frames frames' : List Frame) : Prop :=
  frames'.length = frames.length ∧
  ∀ (j : Nat) (f : Frame), frames[j]? = some f →
    frames'[j]? = some f ∨ (f.referenced ≠ 0 ∧ frames'[j]? = some (clear_referenced f))

/-- Index `j` lies in the cyclic run of `d` frames that starts at `c` in a
table of `n` frames. -/
def in_run (n c d j : Nat) : Prop :=
  (c ≤ j ∧ j < c + d) ∨ j + n < c + d

/-- Number of frames whose referenced bit is set. -/
def referenced_count : List Frame → Nat
  | [] => 0
  | f :: fs => (if f.referenced = 0 then 0 else 1) + referenced_count fs

/-- Consistency of the frame table with the list of pages accessed so far:
of two frames with the same `page_number` the one with the higher index was
never loaded or hit (its stamp is `0`); the stamp of a frame that was loaded
or hit is the position of the most recent access to the page it holds; and no
stamp exceeds the number of accesses. -/
def stamps_ok (frames : List Frame) (pages : List Nat) : Prop :=
  (∀ (i j : Nat) (fi fj : Frame), i < j → frames[i]? = some fi → frames[j]? = some fj →
      fi.page_number = fj.page_number → fj.last_access = 0) ∧
  (∀ (j : Nat) (f : Frame), frames[j]? = some f → 0 < f.last_access →
      f.last_access = last_pos pages f.page_number) ∧
  (∀ (j : Nat) (f : Frame), frames[j]? = some f → f.last_access ≤ pages.length)

/-- The referenced bit of frame `j` (`0` outside the table). -/
def referenced_at (frames : List Frame) (j : Nat) : Int :=
  match frames[j]? with
  | some f => f.referenced
  | none => 0

/-- Search for the first unreferenced frame at an offset of at least `d` from
the cursor `c`, among the next `k` offsets; `d + k` when there is none. -/
def first_unreferenced_from (frames : List Frame) (n c : Nat) : Nat → Nat → Nat
  | 0, d => d
  | k + 1, d =>
    if referenced_at frames ((c + d) % n) = 0 then d
    else first_unreferenced_from frames n c k (d + 1)

/-- The reference definition of the Second-Chance scan distance: the least
`d ≥ 0` such that frame `(c + d) mod n` is unreferenced, or `n` when every
frame is referenced. -/
def first_unreferenced (frames : List Frame) (n c : Nat) : Nat :=
  first_unreferenced_from frames n c n 0

/-- The page faults of a run over page-level accesses, in order: for each
faulting access the victim index the policy returned, the `page_number` the
victim frame held at that moment, and the page loaded into it. -/
def fault_log (alg : String) (rnd : Nat → Nat) (num_frames : Nat) :
    Sim → List (Nat × Char) → List (Nat × Nat × Nat)
  | _, [] => []
  | st, (page, rw_char) :: rest =>
    let later :=
      match access_page alg rnd num_frames st page rw_char with
      | none => []
      | some st' => fault_log alg rnd num_frames st' rest
    if resident st.frames page then later
    else
      match select_victim alg rnd num_frames st with
      | none => later
      | some (v, st1) =>
        match st1.frames[v]? with
        | none => later
        | some f => (v, f.page_number, page) :: later

/-- Number of frames whose modified flag is set. -/
def modified_count : List Frame → Nat
  | [] => 0
  | f :: fs => (if f.modified ≠ 0 then 1 else 0) + modified_count fs

/-- Number of accesses of a trace whose operation character is `'W'`. -/
def writes : List (Nat × Char) → Nat
  | [] => 0
  | a :: rest => (if a.2 = 'W' then 1 else 0) + writes rest

/-- Consistency of a FIFO state with the log `log` of the page faults so far:
the cursor and `fault_count` follow the number of faults, fault `k` (counted
from `0`) chose frame `k mod n`, the page evicted by fault `k + n` is the page
loaded by fault `k`, and the pages loaded by the last `n` faults are still in
their frames. -/
def fifo_ok (n : Nat) (st : Sim) (log : List (Nat × Nat × Nat)) : Prop :=
  Sim.ok n st ∧ st.next_frame = log.length % n ∧ st.page_faults = log.length ∧
  (∀ (k : Nat) (e : Nat × Nat × Nat), log[k]? = some e → e.1 = k % n) ∧
  (∀ (k : Nat) (e e' : Nat × Nat × Nat), log[k]? = some e → log[k + n]? = some e' →
    e'.2.1 = e.2.2) ∧
  (∀ (k : Nat) (e : Nat × Nat × Nat) (f : Frame), log[k]? = some e → log.length ≤ k + n →
    st.frames[k % n]? = some f → f.page_number = e.2.2)

/-- Relation between a FIFO state `sf` and a Second-Chance state `ss` that have
replayed the same trace without a hit: same cursor, same counters, same
`page_number`, `modified` and `last_access` in every frame; and in `ss` the
frames below some `q ≤ n` are referenced, the others are not, with the cursor
at `q mod n`. -/
def lockstep (n : Nat) (sf ss : Sim) : Prop :=
  Sim.ok n sf ∧ Sim.ok n ss ∧ sf.next_frame = ss.pointer ∧
  sf.page_faults = ss.page_faults ∧ sf.pages_written = ss.pages_written ∧
  sf.access_count = ss.access_count ∧
  (∀ (j : Nat) (f g : Frame), sf.frames[j]? = some f → ss.frames[j]? = some g →
    f.page_number = g.page_number ∧ f.modified = g.modified ∧
      f.last_access = g.last_access) ∧
  ∃ q, q ≤ n ∧ ss.pointer = q % n ∧
    ∀ (j : Nat) (g : Frame), ss.frames[j]? = some g →
      (j < q → g.referenced ≠ 0) ∧ (q ≤ j → g.referenced = 0)

/-! ## Address translation -/

theorem calculate_s_loop_log2 (budget page_size s : Nat) (h : page_size ≤ budget) :
    calculate_s_loop budget page_size s = s + Nat.log2 page_size := by
  induction budget generalizing page_size s with
  | zero =>
    have : page_size = 0 := by omega
    subst this
    simp [calculate_s_loop, Nat.log2]
  | succ b ih =>
    unfold calculate_s_loop
    by_cases hp : page_size > 1
    · rw [if_pos hp, Nat.shiftRight_succ, Nat.shiftRight_zero, ih _ _ (by omega)]
      conv_rhs => rw [Nat.log2]
      rw [if_pos (by omega)]
      omega
    · rw [if_neg hp]
      rw [Nat.log2, if_neg (by omega)]
      rfl

/-- More iterations than `page_size` never change the result of the loop of
`calculate_s`: the loop has stopped by then. -/
theorem calculate_s_loop_budget (budget page_size : Nat) (h : page_size ≤ budget) :
    calculate_s_loop budget page_size 0 = calculate_s page_size := by
  rw [calculate_s, calculate_s_loop_log2 _ _ _ h, calculate_s_loop_log2 _ _ _ (le_refl _)]

theorem calculate_s_eq_log2 (page_size : Nat) : calculate_s page_size = Nat.log2 page_size := by
  rw [calculate_s, calculate_s_loop_log2 _ _ _ (le_refl _)]
  omega

theorem calculate_s_two_pow (k : Nat) : calculate_s (2 ^ k) = k := by
  rw [calculate_s_eq_log2, Nat.log2_two_pow]

/-- C7. For a page size `2^k` with `k ≤ 31`, `calculate_s` returns `k`, the page
number `a >> calculate_s(page_size)` of a 32-bit address is `a / page_size`, and two
addresses have the same page number exactly when they agree on every bit from bit
`k` upwards. -/
theorem address_translation (k a b : Nat) (_hk : k ≤ 31) (_ha : a < 2 ^ 32) (_hb : b < 2 ^ 32) :
    calculate_s (2 ^ k) = k ∧
    page_of a (2 ^ k) = a / 2 ^ k ∧
    (page_of a (2 ^ k) = page_of b (2 ^ k) ↔ ∀ i, k ≤ i → a.testBit i = b.testBit i) := by
  refine ⟨calculate_s_two_pow k, ?_, ?_⟩
  · rw [page_of, calculate_s_two_pow, Nat.shiftRight_eq_div_pow]
  · rw [page_of, page_of, calculate_s_two_pow]
    constructor
    · intro h i hi
      obtain ⟨j, rfl⟩ : ∃ j, i = k + j := ⟨i - k, by omega⟩
      rw [← Nat.testBit_shiftRight, ← Nat.testBit_shiftRight, h]
    · intro h
      apply Nat.eq_of_testBit_eq
      intro j
      rw [Nat.testBit_shiftRight, Nat.testBit_shiftRight]
      exact h _ (by omega)

theorem address_translation_witness :
    (12 ≤ 31 ∧ 0x1abc < 2 ^ 32 ∧ 0x1fff < 2 ^ 32) ∧
    calculate_s (2 ^ 12) = 12 ∧
    page_of 0x1abc (2 ^ 12) = 0x1abc / 2 ^ 12 ∧
    (page_of 0x1abc (2 ^ 12) = page_of 0x1fff (2 ^ 12) ↔
      ∀ i, 12 ≤ i → (0x1abc).testBit i = (0x1fff).testBit i) :=
  ⟨by decide, address_translation 12 0x1abc 0x1fff (by decide) (by decide) (by decide)⟩

/-! ## Victim selection -/

theorem getElem?_lt_length {frames : List Frame} {j : Nat} {f : Frame}
    (h : frames[j]? = some f) : j < frames.length := by
  rcases List.getElem?_eq_some.mp h with ⟨hj, _⟩
  exact hj

theorem succ_mod_cases (c n : Nat) (h : c < n) :
    (c + 1 = n ∧ (c + 1) % n = 0) ∨ (c + 1 < n ∧ (c + 1) % n = c + 1) := by
  by_cases hc : c + 1 = n
  · left
    exact ⟨hc, by rw [hc, Nat.mod_self]⟩
  · right
    exact ⟨by omega, Nat.mod_eq_of_lt (by omega)⟩

theorem only_cleared_refl (frames : List Frame) : only_cleared frames frames :=
  ⟨rfl, fun _ _ h => Or.inl h⟩

theorem only_cleared_trans {a b c : List Frame} (hab : only_cleared a b)
    (hbc : only_cleared b c) : only_cleared a c := by
  refine ⟨hbc.1.trans hab.1, ?_⟩
  intro j f hf
  rcases hab.2 j f hf with h | ⟨hr, h⟩
  · exact hbc.2 j f h
  · rcases hbc.2 j _ h with h' | ⟨hr', _⟩
    · exact Or.inr ⟨hr, h'⟩
    · exact absurd rfl hr'

theorem only_cleared_set {frames : List Frame} {p : Nat} {f : Frame}
    (hf : frames[p]? = some f) (hr : f.referenced ≠ 0) :
    only_cleared frames (frames.set p { f with referenced := 0 }) := by
  refine ⟨List.length_set _ _ _, ?_⟩
  intro j g hg
  by_cases hj : p = j
  · subst hj
    right
    have : f = g := by rw [hf] at hg; exact Option.some.inj hg
    subst this
    exact ⟨hr, by rw [List.getElem?_set_self (getElem?_lt_length hf)]; rfl⟩
  · left
    rw [List.getElem?_set_ne hj]
    exact hg

theorem referenced_count_le (frames : List Frame) : referenced_count frames ≤ frames.length := by
  induction frames with
  | nil => simp [referenced_count]
  | cons f fs ih =>
    simp only [referenced_count, List.length_cons]
    split <;> omega

theorem referenced_count_set (frames : List Frame) (p : Nat) (f : Frame)
    (hf : frames[p]? = some f) (hr : f.referenced ≠ 0) :
    referenced_count (frames.set p { f with referenced := 0 }) + 1 = referenced_count frames := by
  induction frames generalizing p with
  | nil => simp at hf
  | cons g gs ih =>
    cases p with
    | zero =>
      simp only [List.getElem?_cons_zero, Option.some.injEq] at hf
      subst hf
      simp [referenced_count, hr]
      omega
    | succ q =>
      simp only [List.getElem?_cons_succ] at hf
      simp only [List.set_cons_succ, referenced_count]
      have := ih q hf
      omega

/-- The scan of `second_chance_replace` returns once its budget exceeds the
number of referenced frames: it yields a victim and a cursor inside the table
and has only cleared referenced bits. -/
theorem second_chance_scan_total (n budget : Nat) (frames : List Frame) (p : Nat)
    (hlen : frames.length = n) (hp : p < n) (hb : referenced_count frames < budget) :
    ∃ v frames' p', second_chance_scan budget frames n p = some (v, frames', p') ∧
      v < n ∧ p' < n ∧ only_cleared frames frames' := by
  induction budget generalizing frames p with
  | zero => omega
  | succ b ih =>
    obtain ⟨f, hf⟩ : ∃ f, frames[p]? = some f :=
      ⟨frames[p], List.getElem?_eq_getElem (by omega)⟩
    unfold second_chance_scan
    rw [hf]
    by_cases hr : f.referenced = 0
    · simp only [hr, if_true]
      exact ⟨p, frames, _, rfl, hp, Nat.mod_lt _ (by omega), only_cleared_refl _⟩
    · simp only [hr, if_false]
      have hc := referenced_count_set frames p f hf hr
      obtain ⟨v, frames', p', h1, h2, h3, h4⟩ :=
        ih (frames.set p { f with referenced := 0 }) ((p + 1) % n)
          (by rw [List.length_set]; exact hlen) (Nat.mod_lt _ (by omega)) (by omega)
      exact ⟨v, frames', p', h1, h2, h3, only_cleared_trans (only_cleared_set hf hr) h4⟩

/-- A larger budget does not change what the scan returns. -/
theorem second_chance_scan_mono (n budget extra : Nat) (frames : List Frame) (p : Nat)
    (r : Nat × List Frame × Nat) (h : second_chance_scan budget frames n p = some r) :
    second_chance_scan (budget + extra) frames n p = some r := by
  induction budget generalizing frames p with
  | zero => simp [second_chance_scan] at h
  | succ b ih =>
    rw [Nat.add_right_comm]
    unfold second_chance_scan at h ⊢
    cases hf : frames[p]? with
    | none => rw [hf] at h; simp at h
    | some f =>
      rw [hf] at h
      simp only at h ⊢
      by_cases hr : f.referenced = 0
      · simpa [hr] using h
      · simp only [hr, if_false] at h ⊢
        exact ih _ _ h

/-- `num_frames + 1` iterations are enough for `second_chance_replace`: with
any budget of at least that many the loop returns the same result. -/
theorem second_chance_scan_budget (n budget : Nat) (frames : List Frame) (p : Nat)
    (hlen : frames.length = n) (hp : p < n) (hb : n + 1 ≤ budget) :
    ∃ r, second_chance_replace frames n p = some r ∧
      second_chance_scan budget frames n p = some r := by
  obtain ⟨v, frames', p', h, _⟩ := second_chance_scan_total n (n + 1) frames p hlen hp
    (by have := referenced_count_le frames; omega)
  refine ⟨_, h, ?_⟩
  obtain ⟨e, rfl⟩ : ∃ e, budget = n + 1 + e := ⟨budget - (n + 1), by omega⟩
  exact second_chance_scan_mono n (n + 1) e frames p _ h

/-- Passing over a cyclic run of `d` referenced frames: the scan clears
exactly these frames and goes on from the frame after the run. -/
theorem second_chance_scan_skip (n d budget : Nat) (frames : List Frame) (c : Nat)
    (hlen : frames.length = n) (hc : c < n) (hd : d ≤ n)
    (href : ∀ (j : Nat) (f : Frame), in_run n c d j → frames[j]? = some f → f.referenced ≠ 0) :
    ∃ frames', second_chance_scan (budget + d) frames n c
        = second_chance_scan budget frames' n ((c + d) % n) ∧
      frames'.length = n ∧
      ∀ j : Nat, (in_run n c d j → frames'[j]? = (frames[j]?).map clear_referenced) ∧
        (¬ in_run n c d j → frames'[j]? = frames[j]?) := by
  induction d generalizing frames c with
  | zero =>
    refine ⟨frames, ?_, hlen, ?_⟩
    · rw [Nat.add_zero, Nat.add_zero, Nat.mod_eq_of_lt hc]
    · intro j
      refine ⟨fun h => ?_, fun _ => rfl⟩
      unfold in_run at h
      omega
  | succ d ih =>
    obtain ⟨f, hf⟩ : ∃ f, frames[c]? = some f :=
      ⟨frames[c], List.getElem?_eq_getElem (by omega)⟩
    have hr : f.referenced ≠ 0 := href c f (Or.inl ⟨le_refl _, by omega⟩) hf
    have hstep : second_chance_scan (budget + (d + 1)) frames n c
        = second_chance_scan (budget + d) (frames.set c { f with referenced := 0 }) n
            ((c + 1) % n) := by
      rw [← Nat.add_assoc]
      conv_lhs => unfold second_chance_scan
      rw [hf]
      simp only [hr, if_false]
    have hc' : (c + 1) % n < n := Nat.mod_lt _ (by omega)
    have hcases := succ_mod_cases c n hc
    obtain ⟨frames', h1, h2, h3⟩ := ih (frames.set c { f with referenced := 0 }) ((c + 1) % n)
      (by rw [List.length_set]; exact hlen) hc' (by omega) (by
        intro j g hj hg
        have hne : c ≠ j := by
          unfold in_run at hj
          rcases hcases with ⟨h0, e⟩ | ⟨h0, e⟩ <;> rw [e] at hj <;> omega
        rw [List.getElem?_set_ne hne] at hg
        refine href j g ?_ hg
        have hjn := getElem?_lt_length hg
        unfold in_run at hj ⊢
        rcases hcases with ⟨h0, e⟩ | ⟨h0, e⟩ <;> rw [e] at hj <;> omega)
    refine ⟨frames', ?_, h2, ?_⟩
    · rw [hstep, h1, Nat.mod_add_mod, Nat.add_assoc, Nat.add_comm 1 d]
    · intro j
      by_cases hcj : c = j
      · subst hcj
        refine ⟨fun _ => ?_, fun h => absurd (Or.inl ⟨le_refl _, by omega⟩) h⟩
        have hset : (frames.set c { f with referenced := 0 })[c]? = some (clear_referenced f) := by
          rw [List.getElem?_set_self (by omega)]; rfl
        by_cases hin : in_run n ((c + 1) % n) d c
        · rw [(h3 c).1 hin, hset, hf]; rfl
        · rw [(h3 c).2 hin, hset, hf]; rfl
      · have hiff : j < n → (in_run n ((c + 1) % n) d j ↔ in_run n c (d + 1) j) := by
          intro hj
          unfold in_run
          rcases hcases with ⟨h0, e⟩ | ⟨h0, e⟩ <;> rw [e] <;> constructor <;> intro h <;> omega
        constructor
        · intro hin
          by_cases hj : j < n
          · rw [(h3 j).1 ((hiff hj).mpr hin), List.getElem?_set_ne hcj]
          · rw [List.getElem?_eq_none (by omega), List.getElem?_eq_none (by omega)]; rfl
        · intro hin
          by_cases hj : j < n
          · rw [(h3 j).2 (fun h => hin ((hiff hj).mp h)), List.getElem?_set_ne hcj]
          · rw [List.getElem?_eq_none (by omega), List.getElem?_eq_none (by omega)]

/-- C6. Second-Chance on a table whose frames are all referenced: with the cursor at
`c`, the loop of `second_chance_replace` returns (for every budget of at least
`N + 1` iterations, so in particular the call terminates), the victim is `c`,
every referenced bit is cleared and the cursor is left at `(c + 1) mod N`. -/
theorem second_chance_all_referenced (n c budget : Nat) (frames : List Frame)
    (_hn : 1 ≤ n) (hlen : frames.length = n) (hc : c < n) (hb : n + 1 ≤ budget)
    (href : ∀ f ∈ frames, f.referenced ≠ 0) :
    second_chance_replace frames n c = some (c, frames.map clear_referenced, (c + 1) % n) ∧
    second_chance_scan budget frames n c
      = some (c, frames.map clear_referenced, (c + 1) % n) ∧
    ∀ f ∈ frames.map clear_referenced, f.referenced = 0 := by
  have key : ∀ b, second_chance_scan (b + 1 + n) frames n c
      = some (c, frames.map clear_referenced, (c + 1) % n) := by
    intro b
    obtain ⟨frames', h1, h2, h3⟩ := second_chance_scan_skip n n (b + 1) frames c hlen hc
      (le_refl _) (fun j f _ hf => href f (List.getElem?_mem hf))
    have hfr : frames' = frames.map clear_referenced := by
      apply List.ext_getElem?
      intro j
      rw [List.getElem?_map]
      by_cases hj : j < n
      · exact (h3 j).1 (by unfold in_run; omega)
      · rw [List.getElem?_eq_none (by omega), List.getElem?_eq_none (by omega)]; rfl
    subst hfr
    rw [h1, Nat.add_mod_right, Nat.mod_eq_of_lt hc]
    unfold second_chance_scan
    rw [List.getElem?_map, List.getElem?_eq_getElem (by omega)]
    simp [clear_referenced]
  refine ⟨?_, ?_, ?_⟩
  · have := key 0
    rw [Nat.zero_add, Nat.add_comm] at this
    exact this
  · obtain ⟨e, rfl⟩ : ∃ e, budget = e + 1 + n := ⟨budget - (n + 1), by omega⟩
    exact key e
  · intro f hf
    rcases List.mem_map.mp hf with ⟨g, _, rfl⟩
    rfl

theorem second_chance_all_referenced_witness :
    (1 ≤ 3 ∧ [(⟨0, 7, 0, 1, 1⟩ : Frame), ⟨0, 8, 1, 1, 2⟩, ⟨0, 9, 0, 1, 3⟩].length = 3 ∧
      1 < 3 ∧ 3 + 1 ≤ 4) ∧
    second_chance_replace [⟨0, 7, 0, 1, 1⟩, ⟨0, 8, 1, 1, 2⟩, ⟨0, 9, 0, 1, 3⟩] 3 1
      = some (1, [⟨0, 7, 0, 0, 1⟩, ⟨0, 8, 1, 0, 2⟩, ⟨0, 9, 0, 0, 3⟩], 2) :=
  ⟨by decide,
    (second_chance_all_referenced 3 1 4 [⟨0, 7, 0, 1, 1⟩, ⟨0, 8, 1, 1, 2⟩, ⟨0, 9, 0, 1, 3⟩]
      (by decide) (by decide) (by decide) (by decide) (by decide)).1⟩

/-- What the loop of `lru_replace` computes: either no remaining frame is
older than `min_time` and the candidate is kept, or the result is the first
remaining frame with the smallest stamp, which is below `min_time`. -/
theorem lru_loop_spec (fs : List Frame) (i min_time r : Nat) :
    (lru_loop fs i min_time r = r ∧ ∀ g ∈ fs, min_time ≤ g.last_access) ∨
    ∃ (k : Nat) (f : Frame), fs[k]? = some f ∧ lru_loop fs i min_time r = i + k ∧
      f.last_access < min_time ∧ (∀ g ∈ fs, f.last_access ≤ g.last_access) ∧
      ∀ (k' : Nat) (g : Frame), k' < k → fs[k']? = some g → f.last_access < g.last_access := by
  induction fs generalizing i min_time r with
  | nil => left; exact ⟨rfl, by simp⟩
  | cons f fs ih =>
    unfold lru_loop
    by_cases hlt : f.last_access < min_time
    · rw [if_pos hlt]
      right
      rcases ih (i + 1) f.last_access i with ⟨h1, h2⟩ | ⟨k, g, hg, h1, h2, h3, h4⟩
      · refine ⟨0, f, by simp, by rw [h1]; rfl, hlt, ?_, ?_⟩
        · intro g hg
          rcases List.mem_cons.mp hg with rfl | hg
          · exact le_refl _
          · exact h2 g hg
        · intro k' g hk'
          omega
      · refine ⟨k + 1, g, by simpa using hg, by rw [h1]; omega, by omega, ?_, ?_⟩
        · intro g' hg'
          rcases List.mem_cons.mp hg' with rfl | hg'
          · omega
          · exact h3 g' hg'
        · intro k' g' hk' hg'
          cases k' with
          | zero =>
            simp only [List.getElem?_cons_zero, Option.some.injEq] at hg'
            subst hg'
            exact h2
          | succ k'' =>
            simp only [List.getElem?_cons_succ] at hg'
            exact h4 k'' g' (by omega) hg'
    · rw [if_neg hlt]
      rcases ih (i + 1) min_time r with ⟨h1, h2⟩ | ⟨k, g, hg, h1, h2, h3, h4⟩
      · left
        refine ⟨h1, ?_⟩
        intro g hg
        rcases List.mem_cons.mp hg with rfl | hg
        · omega
        · exact h2 g hg
      · right
        refine ⟨k + 1, g, by simpa using hg, by rw [h1]; omega, h2, ?_, ?_⟩
        · intro g' hg'
          rcases List.mem_cons.mp hg' with rfl | hg'
          · omega
          · exact h3 g' hg'
        · intro k' g' hk' hg'
          cases k' with
          | zero =>
            simp only [List.getElem?_cons_zero, Option.some.injEq] at hg'
            subst hg'
            omega
          | succ k'' =>
            simp only [List.getElem?_cons_succ] at hg'
            exact h4 k'' g' (by omega) hg'

/-- `lru_replace` returns an index of the table. -/
theorem lru_replace_lt (frames : List Frame) (n : Nat) (hn : 1 ≤ n) (hlen : frames.length = n) :
    lru_replace frames n < n := by
  unfold lru_replace
  rw [List.take_of_length_le (by omega)]
  rcases lru_loop_spec frames 0 ULONG_MAX 0 with ⟨h, _⟩ | ⟨k, f, hf, h, _⟩
  · omega
  · have := getElem?_lt_length hf
    omega

/-- `lru_replace` returns the first frame with the smallest stamp, provided no
stamp exceeds `ULONG_MAX` (which holds for every value of type `unsigned long`). -/
theorem lru_replace_min (frames : List Frame) (n : Nat) (hn : 1 ≤ n) (hlen : frames.length = n)
    (hmax : ∀ g ∈ frames, g.last_access ≤ ULONG_MAX) :
    ∃ f, frames[lru_replace frames n]? = some f ∧
      (∀ g ∈ frames, f.last_access ≤ g.last_access) ∧
      ∀ (k' : Nat) (g : Frame), k' < lru_replace frames n → frames[k']? = some g →
        f.last_access < g.last_access := by
  unfold lru_replace
  rw [List.take_of_length_le (by omega)]
  rcases lru_loop_spec frames 0 ULONG_MAX 0 with ⟨h, h2⟩ | ⟨k, f, hf, h, _, h3, h4⟩
  · rw [h]
    refine ⟨frames[0], List.getElem?_eq_getElem (by omega), ?_, fun k' g hk' => by omega⟩
    intro g hg
    have := hmax _ (List.getElem_mem (l := frames) (n := 0) (by omega))
    have := h2 g hg
    omega
  · rw [h, Nat.zero_add]
    exact ⟨f, hf, h3, h4⟩

/-- C10. For a table of `N ≥ 1` frames, a cursor in `[0, N)` and any value `r` from
the random source, each of `fifo_replace`, `lru_replace`, `second_chance_replace`
and `random_replace` returns an index in `[0, N)`, and the FIFO and Second-Chance
cursors are in `[0, N)` again afterwards. -/
theorem victim_index_valid (n c r : Nat) (frames : List Frame)
    (hn : 1 ≤ n) (hlen : frames.length = n) (hc : c < n) :
    ((fifo_replace frames n c).1 < n ∧ (fifo_replace frames n c).2 < n) ∧
    lru_replace frames n < n ∧
    (∃ v frames' c', second_chance_replace frames n c = some (v, frames', c') ∧
      v < n ∧ c' < n ∧ frames'.length = n) ∧
    random_replace r n < n := by
  refine ⟨⟨hc, Nat.mod_lt _ (by omega)⟩, lru_replace_lt frames n hn hlen, ?_,
    Nat.mod_lt _ (by omega)⟩
  obtain ⟨v, frames', c', h, hv, hc', hcl⟩ := second_chance_scan_total n (n + 1) frames c hlen hc
    (by have := referenced_count_le frames; omega)
  exact ⟨v, frames', c', h, hv, hc', by rw [hcl.1, hlen]⟩

theorem victim_index_valid_witness :
    (1 ≤ 2 ∧ [(⟨0, 5, 0, 1, 4⟩ : Frame), ⟨0, 6, 1, 0, 3⟩].length = 2 ∧ 1 < 2) ∧
    ((fifo_replace [⟨0, 5, 0, 1, 4⟩, ⟨0, 6, 1, 0, 3⟩] 2 1).1 < 2 ∧
      (fifo_replace [⟨0, 5, 0, 1, 4⟩, ⟨0, 6, 1, 0, 3⟩] 2 1).2 < 2) ∧
    lru_replace [⟨0, 5, 0, 1, 4⟩, ⟨0, 6, 1, 0, 3⟩] 2 < 2 ∧
    (∃ v frames' c', second_chance_replace [⟨0, 5, 0, 1, 4⟩, ⟨0, 6, 1, 0, 3⟩] 2 1
        = some (v, frames', c') ∧ v < 2 ∧ c' < 2 ∧ frames'.length = 2) ∧
    random_replace 12345 2 < 2 :=
  ⟨by decide, victim_index_valid 2 1 12345 [⟨0, 5, 0, 1, 4⟩, ⟨0, 6, 1, 0, 3⟩]
    (by decide) (by decide) (by decide)⟩

/-! ## The access loop -/

theorem run_nil (alg : String) (rnd : Nat → Nat) (page_size n : Nat) (st : Sim) :
    run alg rnd page_size n st [] = some st := rfl

/-- The run over a parsed trace is the iteration of the loop body `access`. -/
theorem run_cons (alg : String) (rnd : Nat → Nat) (page_size n : Nat) (st : Sim)
    (addr : Nat) (rw_char : Char) (rest : List (Nat × Char)) :
    run alg rnd page_size n st ((addr, rw_char) :: rest)
      = (access alg rnd page_size n st addr rw_char).bind
          (fun st' => run alg rnd page_size n st' rest) := by
  unfold run access
  rw [List.map_cons, run_pages]
  cases access_page alg rnd n st (page_of addr page_size) rw_char <;> rfl

theorem resident_false_iff (frames : List Frame) (page : Nat) :
    resident frames page = false ↔ ∀ g ∈ frames, g.page_number ≠ page := by
  unfold resident
  rw [List.any_eq_false]
  simp

theorem probe_none_iff (frames : List Frame) (page ac : Nat) (rw_char : Char) :
    probe frames page ac rw_char = none ↔ resident frames page = false := by
  rw [resident_false_iff]
  induction frames with
  | nil => simp [probe]
  | cons f fs ih =>
    unfold probe
    by_cases h : f.page_number = page
    · simp [h]
    · simp [h, ih]

/-- A successful frame scan updates the first frame that holds the page and
nothing else. -/
theorem probe_some_spec (frames : List Frame) (page ac : Nat) (rw_char : Char)
    (frames' : List Frame) (h : probe frames page ac rw_char = some frames') :
    ∃ (j : Nat) (f : Frame), frames[j]? = some f ∧ f.page_number = page ∧
      (∀ (i : Nat) (g : Frame), i < j → frames[i]? = some g → g.page_number ≠ page) ∧
      frames' = frames.set j { f with last_access := ac, referenced := 1,
                                      modified := if rw_char = 'W' then 1 else f.modified } := by
  induction frames generalizing frames' with
  | nil => simp [probe] at h
  | cons f fs ih =>
    unfold probe at h
    by_cases hp : f.page_number = page
    · rw [if_pos hp] at h
      refine ⟨0, f, by simp, hp, fun i g hi => by omega, ?_⟩
      rw [← Option.some.inj h]
      rfl
    · rw [if_neg hp] at h
      cases hq : probe fs page ac rw_char with
      | none => rw [hq] at h; simp at h
      | some fs' =>
        rw [hq] at h
        obtain ⟨j, g, hg, hgp, hfirst, hset⟩ := ih fs' hq
        refine ⟨j + 1, g, by simpa using hg, hgp, ?_, ?_⟩
        · intro i g' hi hg'
          cases i with
          | zero =>
            simp only [List.getElem?_cons_zero, Option.some.injEq] at hg'
            subst hg'
            exact hp
          | succ i' =>
            simp only [List.getElem?_cons_succ] at hg'
            exact hfirst i' g' (by omega) hg'
        · rw [← Option.some.inj h, hset]
          rfl

/-- The policy dispatch on a well-shaped state: it returns a victim inside the
table, keeps the state well shaped, changes no counter and at most clears
referenced bits. -/
theorem select_victim_spec (alg : String) (rnd : Nat → Nat) (n : Nat) (st : Sim)
    (hok : Sim.ok n st) :
    ∃ v st1, select_victim alg rnd n st = some (v, st1) ∧ v < n ∧ Sim.ok n st1 ∧
      only_cleared st.frames st1.frames ∧ st1.page_faults = st.page_faults ∧
      st1.pages_written = st.pages_written ∧ st1.access_count = st.access_count := by
  obtain ⟨hlen, hnf, hpt⟩ := hok
  have hn : n ≠ 0 := by omega
  unfold select_victim
  by_cases h1 : alg = "fifo"
  · rw [if_pos h1, if_neg hn]
    exact ⟨_, _, rfl, hnf, ⟨hlen, Nat.mod_lt _ (by omega), hpt⟩, only_cleared_refl _, rfl, rfl, rfl⟩
  · rw [if_neg h1]
    by_cases h2 : alg = "lru"
    · rw [if_pos h2]
      exact ⟨_, _, rfl, lru_replace_lt _ _ (by omega) hlen, ⟨hlen, hnf, hpt⟩,
        only_cleared_refl _, rfl, rfl, rfl⟩
    · rw [if_neg h2]
      by_cases h3 : alg = "2a"
      · rw [if_pos h3]
        obtain ⟨v, frames', c', h, hv, hc', hcl⟩ :=
          second_chance_scan_total n (n + 1) st.frames st.pointer hlen hpt
            (by have := referenced_count_le st.frames; omega)
        unfold second_chance_replace
        rw [h]
        exact ⟨_, _, rfl, hv, ⟨by rw [hcl.1]; exact hlen, hnf, hc'⟩, hcl, rfl, rfl, rfl⟩
      · rw [if_neg h3, if_neg hn]
        exact ⟨_, _, rfl, Nat.mod_lt _ (by omega), ⟨hlen, hnf, hpt⟩, only_cleared_refl _,
          rfl, rfl, rfl⟩

/-- The access on a hit: only the frame table and `access_count` change. -/
theorem access_page_hit (alg : String) (rnd : Nat → Nat) (n : Nat) (st : Sim) (page : Nat)
    (rw_char : Char) (hres : resident st.frames page = true) :
    ∃ frames', probe st.frames page (st.access_count + 1) rw_char = some frames' ∧
      access_page alg rnd n st page rw_char
        = some { st with frames := frames', access_count := st.access_count + 1 } := by
  cases hp : probe st.frames page (st.access_count + 1) rw_char with
  | none =>
    rw [probe_none_iff] at hp
    rw [hp] at hres
    exact absurd hres (by decide)
  | some frames' =>
    refine ⟨frames', rfl, ?_⟩
    unfold access_page
    simp only [hp]

/-- The access on a miss: the policy chooses a victim `v`, the victim is
counted as written back when its modified flag is set, and the page is loaded
into frame `v`. -/
theorem access_page_miss (alg : String) (rnd : Nat → Nat) (n : Nat) (st : Sim) (page : Nat)
    (rw_char : Char) (hok : Sim.ok n st) (hres : resident st.frames page = false) :
    ∃ v st1 f, select_victim alg rnd n st = some (v, st1) ∧ v < n ∧ Sim.ok n st1 ∧
      only_cleared st.frames st1.frames ∧ st1.frames[v]? = some f ∧
      access_page alg rnd n st page rw_char
        = some { st1 with
            frames := st1.frames.set v
              { f with page_number := page, last_access := st.access_count + 1,
                       modified := if rw_char = 'W' then 1 else 0, referenced := 1 }
            page_faults := st.page_faults + 1
            pages_written := if f.modified ≠ 0 then st.pages_written + 1 else st.pages_written
            access_count := st.access_count + 1 } := by
  obtain ⟨v, st1, hsel, hv, hok1, hcl, _⟩ := select_victim_spec alg rnd n st hok
  have hv1 : v < st1.frames.length := by rw [hok1.1]; exact hv
  obtain ⟨f, hf⟩ : ∃ f, st1.frames[v]? = some f := ⟨st1.frames[v], List.getElem?_eq_getElem hv1⟩
  refine ⟨v, st1, f, hsel, hv, hok1, hcl, hf, ?_⟩
  unfold access_page
  simp only [(probe_none_iff _ _ _ _).mpr hres, hsel, hf]

theorem init_ok (n : Nat) (hn : 1 ≤ n) : Sim.ok n (init n) := by
  refine ⟨?_, ?_, ?_⟩
  · simp [init]
  · exact hn
  · exact hn

/-- One access from a well-shaped state: it returns a well-shaped state,
advances `access_count` by one and counts a fault exactly when the frame scan
found nothing. -/
theorem access_page_counts (alg : String) (rnd : Nat → Nat) (n : Nat) (st : Sim) (page : Nat)
    (rw_char : Char) (hok : Sim.ok n st) :
    ∃ st', access_page alg rnd n st page rw_char = some st' ∧ Sim.ok n st' ∧
      st'.access_count = st.access_count + 1 ∧
      st'.page_faults + (if resident st.frames page then 1 else 0) = st.page_faults + 1 := by
  cases hres : resident st.frames page with
  | true =>
    obtain ⟨frames', hp, hacc⟩ := access_page_hit alg rnd n st page rw_char hres
    obtain ⟨j, f, _, _, _, hset⟩ := probe_some_spec _ _ _ _ _ hp
    refine ⟨_, hacc, ⟨?_, hok.2.1, hok.2.2⟩, rfl, by simp⟩
    show frames'.length = n
    rw [hset, List.length_set]
    exact hok.1
  | false =>
    obtain ⟨v, st1, f, _, _, hok1, _, _, hacc⟩ := access_page_miss alg rnd n st page rw_char hok hres
    refine ⟨_, hacc, ⟨?_, hok1.2.1, hok1.2.2⟩, rfl, by simp⟩
    show (st1.frames.set v _).length = n
    rw [List.length_set]
    exact hok1.1

/-- One access adds at most one to `page_faults`, and to `pages_written` only
when it adds one to `page_faults`. -/
theorem access_page_int_range (alg : String) (rnd : Nat → Nat) (n : Nat) (st : Sim)
    (page : Nat) (rw_char : Char) (hok : Sim.ok n st) :
    ∃ st', access_page alg rnd n st page rw_char = some st' ∧ Sim.ok n st' ∧
      st'.page_faults ≤ st.page_faults + 1 ∧
      st'.pages_written + st.page_faults ≤ st.pages_written + st'.page_faults := by
  obtain ⟨st', hacc, hok', _⟩ := access_page_counts alg rnd n st page rw_char hok
  refine ⟨st', hacc, hok', ?_⟩
  cases hres : resident st.frames page with
  | true =>
    obtain ⟨frames', _, hacc2⟩ := access_page_hit alg rnd n st page rw_char hres
    rw [hacc] at hacc2
    rw [Option.some.inj hacc2]
    exact ⟨Nat.le_succ _, Nat.le_refl _⟩
  | false =>
    obtain ⟨v, st1, f, _, _, _, _, _, hacc2⟩ :=
      access_page_miss alg rnd n st page rw_char hok hres
    rw [hacc] at hacc2
    rw [Option.some.inj hacc2]
    refine ⟨Nat.le_refl _, ?_⟩
    show (if f.modified ≠ 0 then st.pages_written + 1 else st.pages_written) + st.page_faults
      ≤ st.pages_written + (st.page_faults + 1)
    split <;> omega

/-- C2. Cold start fails for page 0: with two frames and 4 KB pages, under every
policy name and random source, the first access of the run, to address `0`, is
counted as a hit although no page was ever loaded: the run ends with one access
and no page fault.  A zero-initialised frame has `page_number == 0`, which the
frame scan of line 107 takes for page 0. -/
theorem cold_start_page_zero_hit :
    ∀ (alg : String) (rnd : Nat → Nat),
      resident (init 2).frames (page_of 0 4096) = true ∧
      (simulate alg rnd 4096 8192 [(0, 'R')]).map
        (fun st => (st.access_count, st.page_faults)) = some (1, 0) := by
  intro alg rnd
  exact ⟨by decide, rfl⟩

/-- C3. The FIFO example of the specification, two frames and the all-Read page
sequence `[0, 1, 2, 0]` (4 KB pages): the run ends with `fault_count = 3`, not `4`,
and `writeback_count = 0`, because the first access to page 0 matches a
zero-initialised frame and is counted as a hit. -/
theorem fifo_example_three_faults :
    ∀ rnd : Nat → Nat,
      (simulate "fifo" rnd 4096 8192
          [(0x0000, 'R'), (0x1000, 'R'), (0x2000, 'R'), (0x0000, 'R')]).map
        (fun st => (st.access_count, st.page_faults, st.pages_written)) = some (4, 3, 0) ∧
      hits "fifo" rnd 4096 2 (init 2)
        [(0x0000, 'R'), (0x1000, 'R'), (0x2000, 'R'), (0x0000, 'R')] = 1 := by
  intro rnd
  exact ⟨rfl, rfl⟩

/-- C8. Residency uniqueness fails for page number 0: the freshly allocated table of
two frames has `page_number == 0` in both frames, and after the access to
address `0` (a hit in frame 0) both frames still have `page_number == 0`. -/
theorem duplicate_page_zero :
    (∃ f0 f1, (init 2).frames[0]? = some f0 ∧ (init 2).frames[1]? = some f1 ∧
      f0.page_number = 0 ∧ f1.page_number = 0) ∧
    ∀ (alg : String) (rnd : Nat → Nat),
      (simulate alg rnd 4096 8192 [(0, 'R')]).map (fun st => st.frames)
        = some [⟨0, 0, 0, 1, 1⟩, ⟨0, 0, 0, 0, 0⟩] := by
  refine ⟨⟨zero_frame, zero_frame, rfl, rfl, rfl, rfl⟩, ?_⟩
  intro alg rnd
  rfl

/-! ## Time stamps and residency -/

theorem last_pos_from_append (l : List Nat) (p q i acc : Nat) :
    last_pos_from (l ++ [p]) q i acc
      = if p = q then i + l.length else last_pos_from l q i acc := by
  induction l generalizing i acc with
  | nil => simp [last_pos_from]
  | cons a l ih =>
    rw [List.cons_append, last_pos_from, last_pos_from, ih, List.length_cons]
    by_cases hpq : p = q
    · rw [if_pos hpq, if_pos hpq]
      omega
    · rw [if_neg hpq, if_neg hpq]

theorem last_pos_append (l : List Nat) (p q : Nat) :
    last_pos (l ++ [p]) q = if p = q then l.length + 1 else last_pos l q := by
  unfold last_pos
  rw [last_pos_from_append, Nat.add_comm]

theorem getElem?_set_cases {l : List Frame} {j k : Nat} {a b : Frame} (hj : j < l.length)
    (h : (l.set j a)[k]? = some b) : (k = j ∧ b = a) ∨ (k ≠ j ∧ l[k]? = some b) := by
  by_cases hk : j = k
  · subst hk
    rw [List.getElem?_set_self hj] at h
    exact Or.inl ⟨rfl, (Option.some.inj h).symm⟩
  · rw [List.getElem?_set_ne hk] at h
    exact Or.inr ⟨fun e => hk e.symm, h⟩

/-- What `only_cleared` says about a frame of the new table. -/
theorem only_cleared_getElem {a b : List Frame} (h : only_cleared a b) {k : Nat} {g : Frame}
    (hg : b[k]? = some g) :
    ∃ g0, a[k]? = some g0 ∧ (g = g0 ∨ (g0.referenced ≠ 0 ∧ g = clear_referenced g0)) := by
  have hk : k < a.length := by rw [← h.1]; exact getElem?_lt_length hg
  refine ⟨a[k], List.getElem?_eq_getElem hk, ?_⟩
  rcases h.2 k a[k] (List.getElem?_eq_getElem hk) with h' | ⟨hr, h'⟩
  · left
    rw [h'] at hg
    exact (Option.some.inj hg).symm
  · right
    rw [h'] at hg
    exact ⟨hr, (Option.some.inj hg).symm⟩

/-- Clearing referenced bits keeps page, modified flag and stamp of each frame. -/
theorem only_cleared_fields {a b : List Frame} (h : only_cleared a b) {k : Nat} {g : Frame}
    (hg : b[k]? = some g) :
    ∃ g0, a[k]? = some g0 ∧ g.page_number = g0.page_number ∧ g.modified = g0.modified ∧
      g.last_access = g0.last_access ∧ g.frame_number = g0.frame_number := by
  obtain ⟨g0, h0, h1 | ⟨_, h1⟩⟩ := only_cleared_getElem h hg
  · subst h1
    exact ⟨g, h0, rfl, rfl, rfl, rfl⟩
  · subst h1
    exact ⟨g0, h0, rfl, rfl, rfl, rfl⟩

theorem stamps_ok_init (n : Nat) : stamps_ok (init n).frames [] := by
  have hz : ∀ (j : Nat) (f : Frame), (init n).frames[j]? = some f → f = zero_frame := by
    intro j f hf
    have hm := List.getElem?_mem hf
    exact List.eq_of_mem_replicate hm
  refine ⟨?_, ?_, ?_⟩
  · intro i j fi fj _ _ hj _
    rw [hz j fj hj]
    rfl
  · intro j f hf hpos
    rw [hz j f hf] at hpos
    exact absurd hpos (by decide)
  · intro j f hf
    rw [hz j f hf]
    exact Nat.zero_le _

theorem stamps_ok_cleared {a b : List Frame} (pages : List Nat) (h : only_cleared a b)
    (hs : stamps_ok a pages) : stamps_ok b pages := by
  obtain ⟨hb, hd, hle⟩ := hs
  refine ⟨?_, ?_, ?_⟩
  · intro i j fi fj hij hi hj hp
    obtain ⟨gi, hgi, e1, _, _, _⟩ := only_cleared_fields h hi
    obtain ⟨gj, hgj, e2, _, e3, _⟩ := only_cleared_fields h hj
    rw [e3]
    exact hb i j gi gj hij hgi hgj (by rw [← e1, ← e2]; exact hp)
  · intro j f hf hpos
    obtain ⟨g, hg, e1, _, e3, _⟩ := only_cleared_fields h hf
    rw [e3, e1]
    exact hd j g hg (by rw [← e3]; exact hpos)
  · intro j f hf
    obtain ⟨g, hg, _, _, e3, _⟩ := only_cleared_fields h hf
    rw [e3]
    exact hle j g hg

/-- A hit keeps the stamps consistent. -/
theorem stamps_ok_hit (frames : List Frame) (pages : List Nat) (p j : Nat) (f : Frame)
    (rw_char : Char) (hs : stamps_ok frames pages) (hf : frames[j]? = some f)
    (hp : f.page_number = p)
    (hfirst : ∀ (i : Nat) (g : Frame), i < j → frames[i]? = some g → g.page_number ≠ p) :
    stamps_ok (frames.set j { f with last_access := pages.length + 1, referenced := 1,
                                     modified := if rw_char = 'W' then 1 else f.modified })
      (pages ++ [p]) := by
  obtain ⟨hb, hd, hle⟩ := hs
  have hj := getElem?_lt_length hf
  refine ⟨?_, ?_, ?_⟩
  · intro i k fi fk hik hi hk hpage
    rcases getElem?_set_cases hj hi with ⟨ei, efi⟩ | ⟨ei, hi'⟩ <;>
      rcases getElem?_set_cases hj hk with ⟨ek, efk⟩ | ⟨ek, hk'⟩
    · omega
    · subst ei
      subst efi
      exact hb i k f fk hik hf hk' hpage
    · subst ek
      subst efk
      exact absurd (hpage.trans hp) (hfirst i fi hik hi')
    · exact hb i k fi fk hik hi' hk' hpage
  · intro k g hg hpos
    rcases getElem?_set_cases hj hg with ⟨_, eg⟩ | ⟨ek, hg'⟩
    · subst eg
      show pages.length + 1 = last_pos (pages ++ [p]) f.page_number
      rw [last_pos_append, if_pos hp.symm]
    · have hne : p ≠ g.page_number := by
        intro e
        rcases Nat.lt_or_gt_of_ne ek with hlt | hgt
        · exact hfirst k g hlt hg' e.symm
        · have := hb j k f g hgt hf hg' (hp.trans e)
          omega
      rw [last_pos_append, if_neg hne]
      exact hd k g hg' hpos
  · intro k g hg
    rw [List.length_append, List.length_singleton]
    rcases getElem?_set_cases hj hg with ⟨_, eg⟩ | ⟨_, hg'⟩
    · subst eg
      exact le_refl _
    · exact Nat.le_succ_of_le (hle k g hg')

/-- Loading a page that no frame holds keeps the stamps consistent. -/
theorem stamps_ok_load (frames : List Frame) (pages : List Nat) (p v : Nat) (f : Frame)
    (rw_char : Char) (hs : stamps_ok frames pages) (hf : frames[v]? = some f)
    (hmiss : ∀ g ∈ frames, g.page_number ≠ p) :
    stamps_ok (frames.set v { f with page_number := p, last_access := pages.length + 1,
                                     modified := if rw_char = 'W' then 1 else 0,
                                     referenced := 1 })
      (pages ++ [p]) := by
  obtain ⟨hb, hd, hle⟩ := hs
  have hv := getElem?_lt_length hf
  refine ⟨?_, ?_, ?_⟩
  · intro i k fi fk hik hi hk hpage
    rcases getElem?_set_cases hv hi with ⟨ei, efi⟩ | ⟨ei, hi'⟩ <;>
      rcases getElem?_set_cases hv hk with ⟨ek, efk⟩ | ⟨ek, hk'⟩
    · omega
    · subst efi
      exact absurd hpage.symm (hmiss fk (List.getElem?_mem hk'))
    · subst efk
      exact absurd hpage (hmiss fi (List.getElem?_mem hi'))
    · exact hb i k fi fk hik hi' hk' hpage
  · intro k g hg hpos
    rcases getElem?_set_cases hv hg with ⟨_, eg⟩ | ⟨_, hg'⟩
    · subst eg
      show pages.length + 1 = last_pos (pages ++ [p]) p
      rw [last_pos_append, if_pos rfl]
    · rw [last_pos_append, if_neg (fun e => hmiss g (List.getElem?_mem hg') e.symm)]
      exact hd k g hg' hpos
  · intro k g hg
    rw [List.length_append, List.length_singleton]
    rcases getElem?_set_cases hv hg with ⟨_, eg⟩ | ⟨_, hg'⟩
    · subst eg
      exact le_refl _
    · exact Nat.le_succ_of_le (hle k g hg')

/-- One access keeps the state well shaped and the stamps consistent, for
every policy. -/
theorem access_page_stamps (alg : String) (rnd : Nat → Nat) (n : Nat) (st : Sim)
    (pages : List Nat) (p : Nat) (rw_char : Char) (hok : Sim.ok n st)
    (hac : st.access_count = pages.length) (hs : stamps_ok st.frames pages) :
    ∃ st', access_page alg rnd n st p rw_char = some st' ∧ Sim.ok n st' ∧
      st'.access_count = (pages ++ [p]).length ∧ stamps_ok st'.frames (pages ++ [p]) := by
  obtain ⟨st', hacc, hok', hac', _⟩ := access_page_counts alg rnd n st p rw_char hok
  refine ⟨st', hacc, hok', by rw [hac', hac, List.length_append, List.length_singleton], ?_⟩
  cases hres : resident st.frames p with
  | true =>
    obtain ⟨frames', hp, hacc2⟩ := access_page_hit alg rnd n st p rw_char hres
    obtain ⟨j, f, hf, hfp, hfirst, hset⟩ := probe_some_spec _ _ _ _ _ hp
    rw [hacc] at hacc2
    rw [Option.some.inj hacc2]
    show stamps_ok frames' (pages ++ [p])
    rw [hset, hac]
    exact stamps_ok_hit st.frames pages p j f rw_char hs hf hfp hfirst
  | false =>
    obtain ⟨v, st1, f, _, _, _, hcl, hf, hacc2⟩ :=
      access_page_miss alg rnd n st p rw_char hok hres
    rw [hacc] at hacc2
    rw [Option.some.inj hacc2]
    show stamps_ok (st1.frames.set v _) (pages ++ [p])
    rw [hac]
    refine stamps_ok_load st1.frames pages p v f rw_char (stamps_ok_cleared pages hcl hs) hf ?_
    intro g hg
    obtain ⟨k, hk⟩ := List.mem_iff_getElem?.mp hg
    obtain ⟨g0, hg0, e, _⟩ := only_cleared_fields hcl hk
    rw [e]
    exact (resident_false_iff _ _).mp hres g0 (List.getElem?_mem hg0)

/-- The stamps stay consistent along a run, for every policy. -/
theorem run_pages_stamps (alg : String) (rnd : Nat → Nat) (n : Nat) (st : Sim)
    (pages : List Nat) (rest : List (Nat × Char)) (hok : Sim.ok n st)
    (hac : st.access_count = pages.length) (hs : stamps_ok st.frames pages) :
    ∃ st', run_pages alg rnd n st rest = some st' ∧ Sim.ok n st' ∧
      st'.access_count = (pages ++ rest.map Prod.fst).length ∧
      stamps_ok st'.frames (pages ++ rest.map Prod.fst) := by
  induction rest generalizing st pages with
  | nil => exact ⟨st, rfl, hok, by simpa using hac, by simpa using hs⟩
  | cons a rest ih =>
    obtain ⟨p, rw_char⟩ := a
    obtain ⟨st1, h1, hok1, hac1, hs1⟩ := access_page_stamps alg rnd n st pages p rw_char hok hac hs
    obtain ⟨st2, h2, hok2, hac2, hs2⟩ := ih st1 (pages ++ [p]) hok1 hac1 hs1
    refine ⟨st2, ?_, hok2, ?_, ?_⟩
    · simp only [run_pages, h1]
      exact h2
    · simpa using hac2
    · simpa using hs2

/-- C4. LRU at trace level, for `N ≥ 1` frames and a trace of fewer than `ULONG_MAX`
accesses: the run returns; the stamp of every frame that was loaded or hit
(`last_access > 0`) is the 1-based position of the most recent access to the page
the frame holds; and when the next access is a page fault, the frame that is
replaced is the one `lru_replace` returns, its stamp is the smallest of all frames,
and, if it was ever loaded, the page it holds is the least recently accessed of
all pages in the table. -/
theorem lru_evicts_least_recent (rnd : Nat → Nat) (page_size n : Nat)
    (trace : List (Nat × Char)) (addr : Nat) (rw_char : Char)
    (hn : 1 ≤ n) (hlen : trace.length < ULONG_MAX) :
    ∃ st, run "lru" rnd page_size n (init n) trace = some st ∧
      (∀ (j : Nat) (f : Frame), st.frames[j]? = some f → 0 < f.last_access →
        f.last_access
          = last_pos (trace.map (fun a => page_of a.1 page_size)) f.page_number) ∧
      (resident st.frames (page_of addr page_size) = false →
        ∃ fv st', st.frames[lru_replace st.frames n]? = some fv ∧
          (∀ g ∈ st.frames, fv.last_access ≤ g.last_access) ∧
          access "lru" rnd page_size n st addr rw_char = some st' ∧
          st'.frames = st.frames.set (lru_replace st.frames n)
            { fv with page_number := page_of addr page_size,
                      last_access := trace.length + 1,
                      modified := if rw_char = 'W' then 1 else 0, referenced := 1 } ∧
          (0 < fv.last_access → ∀ g ∈ st.frames,
            last_pos (trace.map (fun a => page_of a.1 page_size)) fv.page_number
              ≤ last_pos (trace.map (fun a => page_of a.1 page_size)) g.page_number)) := by
  obtain ⟨st, hrun, hok, hac, hs⟩ := run_pages_stamps "lru" rnd n (init n) []
    (trace.map (fun a => (page_of a.1 page_size, a.2))) (init_ok n hn) rfl (stamps_ok_init n)
  have hpages : [] ++ (trace.map (fun a => (page_of a.1 page_size, a.2))).map Prod.fst
      = trace.map (fun a => page_of a.1 page_size) := by
    rw [List.nil_append, List.map_map]
    rfl
  rw [hpages] at hac hs
  rw [List.length_map] at hac
  obtain ⟨_, hd, hle⟩ := hs
  refine ⟨st, hrun, hd, ?_⟩
  intro hres
  obtain ⟨v, st1, f, hsel, _, _, _, hf, hacc⟩ :=
    access_page_miss "lru" rnd n st (page_of addr page_size) rw_char hok hres
  have hsel' : select_victim "lru" rnd n st = some (lru_replace st.frames n, st) := rfl
  rw [hsel'] at hsel
  have hv : lru_replace st.frames n = v := (Prod.mk.inj (Option.some.inj hsel)).1
  have hst : st = st1 := (Prod.mk.inj (Option.some.inj hsel)).2
  subst hst
  subst hv
  obtain ⟨fv, hfv, hmin, _⟩ := lru_replace_min st.frames n hn hok.1 (by
    intro g hg
    obtain ⟨k, hk⟩ := List.mem_iff_getElem?.mp hg
    have := hle k g hk
    rw [List.length_map] at this
    omega)
  have hfe : f = fv := by rw [hf] at hfv; exact Option.some.inj hfv
  subst hfe
  refine ⟨f, _, hf, hmin, hacc, ?_, ?_⟩
  · show st.frames.set _ _ = st.frames.set _ _
    rw [hac]
  · intro hpos g hg
    obtain ⟨k, hk⟩ := List.mem_iff_getElem?.mp hg
    have h1 := hmin g hg
    rw [← hd _ f hf hpos, ← hd k g hk (by omega)]
    exact h1

theorem lru_evicts_least_recent_witness :
    (1 ≤ 2 ∧ [(0x0000, 'R'), (0x1000, 'R'), (0x0000, 'R')].length < ULONG_MAX) ∧
    (∃ st, run "lru" (fun _ => 0) 4096 2 (init 2)
          [(0x0000, 'R'), (0x1000, 'R'), (0x0000, 'R')] = some st ∧
      (∀ (j : Nat) (f : Frame), st.frames[j]? = some f → 0 < f.last_access →
        f.last_access
          = last_pos ([(0x0000, 'R'), (0x1000, 'R'), (0x0000, 'R')].map
              (fun a => page_of a.1 4096)) f.page_number) ∧
      (resident st.frames (page_of 0x2000 4096) = false →
        ∃ fv st', st.frames[lru_replace st.frames 2]? = some fv ∧
          (∀ g ∈ st.frames, fv.last_access ≤ g.last_access) ∧
          access "lru" (fun _ => 0) 4096 2 st 0x2000 'R' = some st' ∧
          st'.frames = st.frames.set (lru_replace st.frames 2)
            { fv with page_number := page_of 0x2000 4096,
                      last_access := [(0x0000, 'R'), (0x1000, 'R'), (0x0000, 'R')].length + 1,
                      modified := if 'R' = 'W' then 1 else 0, referenced := 1 } ∧
          (0 < fv.last_access → ∀ g ∈ st.frames,
            last_pos ([(0x0000, 'R'), (0x1000, 'R'), (0x0000, 'R')].map
                (fun a => page_of a.1 4096)) fv.page_number
              ≤ last_pos ([(0x0000, 'R'), (0x1000, 'R'), (0x0000, 'R')].map
                (fun a => page_of a.1 4096)) g.page_number))) ∧
    (run "lru" (fun _ => 0) 4096 2 (init 2)
        [(0x0000, 'R'), (0x1000, 'R'), (0x0000, 'R')]).map (fun st => st.frames)
      = some [⟨0, 0, 0, 1, 3⟩, ⟨0, 1, 0, 1, 2⟩] ∧
    (run "lru" (fun _ => 0) 4096 2 (init 2)
        [(0x0000, 'R'), (0x1000, 'R'), (0x0000, 'R'), (0x2000, 'R')]).map (fun st => st.frames)
      = some [⟨0, 0, 0, 1, 3⟩, ⟨0, 2, 0, 1, 4⟩] :=
  ⟨⟨by decide, by decide⟩,
    lru_evicts_least_recent (fun _ => 0) 4096 2 [(0x0000, 'R'), (0x1000, 'R'), (0x0000, 'R')]
      0x2000 'R' (by decide) (by decide),
    by decide, by decide⟩

/-- C5. Writeback accounting, for every policy name and every well-shaped state
whose `int` counters are below `INT_MAX` (so that the increments of lines 120 and
135 do not overflow): the access returns and leaves both counters at most
`INT_MAX`; on a hit `writeback_count` is unchanged; on a fault, with `v` the
victim the policy selects and `f` the frame at `v` when the policy is called,
`writeback_count` grows by exactly one if `f.modified` is set and is unchanged
otherwise, and the accessed page is loaded into frame `v`. -/
theorem writeback_accounting (alg : String) (rnd : Nat → Nat) (n : Nat) (st : Sim)
    (page : Nat) (rw_char : Char) (hok : Sim.ok n st)
    (hpf : st.page_faults < INT_MAX) (hpw : st.pages_written < INT_MAX) :
    ∃ st', access_page alg rnd n st page rw_char = some st' ∧
      st'.page_faults ≤ INT_MAX ∧ st'.pages_written ≤ INT_MAX ∧
      (resident st.frames page = true → st'.pages_written = st.pages_written) ∧
      (resident st.frames page = false →
        ∃ v st1 f, select_victim alg rnd n st = some (v, st1) ∧ st.frames[v]? = some f ∧
          (f.modified ≠ 0 → st'.pages_written = st.pages_written + 1) ∧
          (f.modified = 0 → st'.pages_written = st.pages_written) ∧
          (st'.frames[v]?).map Frame.page_number = some page) := by
  obtain ⟨st', hacc0, _, hb1, hb2⟩ := access_page_int_range alg rnd n st page rw_char hok
  refine ⟨st', hacc0, by omega, by omega, ?_⟩
  cases hres : resident st.frames page with
  | true =>
    obtain ⟨frames', _, hacc⟩ := access_page_hit alg rnd n st page rw_char hres
    rw [hacc0] at hacc
    have hst := Option.some.inj hacc
    subst hst
    exact ⟨fun _ => rfl, fun h => absurd h (by decide)⟩
  | false =>
    obtain ⟨v, st1, f, hsel, _, _, hcl, hf, hacc⟩ :=
      access_page_miss alg rnd n st page rw_char hok hres
    obtain ⟨f0, hf0, _, hm, _, _⟩ := only_cleared_fields hcl hf
    rw [hacc0] at hacc
    have hst := Option.some.inj hacc
    subst hst
    refine ⟨fun h => absurd h (by decide), fun _ => ⟨v, st1, f0, hsel, hf0, ?_, ?_, ?_⟩⟩
    · intro hmod
      show (if f.modified ≠ 0 then st.pages_written + 1 else st.pages_written) = _
      rw [hm, if_pos hmod]
    · intro hmod
      show (if f.modified ≠ 0 then st.pages_written + 1 else st.pages_written) = _
      rw [hm, if_neg (fun h => h hmod)]
    · show ((st1.frames.set v _)[v]?).map Frame.page_number = some page
      rw [List.getElem?_set_self (getElem?_lt_length hf)]
      rfl

theorem writeback_accounting_witness :
    (Sim.ok 1 ⟨[⟨0, 1, 1, 1, 1⟩], 0, 0, 0, 1, 0, 1⟩ ∧
      (⟨[⟨0, 1, 1, 1, 1⟩], 0, 0, 0, 1, 0, 1⟩ : Sim).page_faults < INT_MAX ∧
      (⟨[⟨0, 1, 1, 1, 1⟩], 0, 0, 0, 1, 0, 1⟩ : Sim).pages_written < INT_MAX) ∧
    access_page "2a" (fun _ => 0) 1 ⟨[⟨0, 1, 1, 1, 1⟩], 0, 0, 0, 1, 0, 1⟩ 2 'R'
      = some ⟨[⟨0, 2, 0, 1, 2⟩], 0, 0, 0, 2, 1, 2⟩ ∧
    (∃ st', access_page "2a" (fun _ => 0) 1 ⟨[⟨0, 1, 1, 1, 1⟩], 0, 0, 0, 1, 0, 1⟩ 2 'R' = some st' ∧
      st'.page_faults ≤ INT_MAX ∧ st'.pages_written ≤ INT_MAX ∧
      (resident [(⟨0, 1, 1, 1, 1⟩ : Frame)] 2 = true → st'.pages_written = 0) ∧
      (resident [(⟨0, 1, 1, 1, 1⟩ : Frame)] 2 = false →
        ∃ v st1 f, select_victim "2a" (fun _ => 0) 1 ⟨[⟨0, 1, 1, 1, 1⟩], 0, 0, 0, 1, 0, 1⟩
            = some (v, st1) ∧
          [(⟨0, 1, 1, 1, 1⟩ : Frame)][v]? = some f ∧
          (f.modified ≠ 0 → st'.pages_written = 0 + 1) ∧
          (f.modified = 0 → st'.pages_written = 0) ∧
          (st'.frames[v]?).map Frame.page_number = some 2)) ∧
    (∀ alg ∈ ["fifo", "lru", "2a", "random"],
      (simulate alg (fun _ => 0) 4096 8192 [(0x1000, 'W'), (0x2000, 'R'), (0x3000, 'R')]).map
        (fun st => st.pages_written) = some 1) :=
  ⟨⟨⟨rfl, by decide, by decide⟩, by decide, by decide⟩, by decide,
    writeback_accounting "2a" (fun _ => 0) 1 ⟨[⟨0, 1, 1, 1, 1⟩], 0, 0, 0, 1, 0, 1⟩ 2 'R'
      ⟨rfl, by decide, by decide⟩ (by decide) (by decide),
    by decide⟩

/-! ## Reading the trace file -/

/-- Once the unread input starts with a line `fscanf` cannot match, every
further iteration replays the last parsed access and the loop goes on. -/
theorem simulate_loop_stuck (rnd : Nat → Nat) (budget m : Nat) :
    simulate_loop "fifo" rnd 4096 1 budget "zz R\n".toList 0x1000 'R'
        ⟨[⟨0, 1, 0, 1, m⟩], 0, 0, 0, 1, 0, m⟩
      = Outcome.running ⟨[⟨0, 1, 0, 1, m + budget⟩], 0, 0, 0, 1, 0, m + budget⟩ := by
  induction budget generalizing m with
  | zero => rfl
  | succ b ih =>
    have hstep : simulate_loop "fifo" rnd 4096 1 (b + 1) "zz R\n".toList 0x1000 'R'
          ⟨[⟨0, 1, 0, 1, m⟩], 0, 0, 0, 1, 0, m⟩
        = simulate_loop "fifo" rnd 4096 1 b "zz R\n".toList 0x1000 'R'
          ⟨[⟨0, 1, 0, 1, m + 1⟩], 0, 0, 0, 1, 0, m + 1⟩ := rfl
    rw [hstep, ih (m + 1), Nat.add_assoc, Nat.add_comm 1 b]

/-- C9. A malformed trace line does not end the run.  With one frame, 4 KB pages and
the file `1000 R`, `zz R` (one well-formed line, one malformed line), the access
loop is still running after any number of iterations and has counted every
iteration as an access: `fscanf` returns `0`, not `EOF`, on the malformed line and
leaves it unread.  With the file `1000 R`, `2000` (truncated last line) the loop
ends, but the truncated line is replayed as an access: `access_count` is `2`,
not `1`, and there are two page faults. -/
theorem malformed_line_does_not_end_run :
    (∀ (rnd : Nat → Nat) (budget addr0 : Nat) (rw0 : Char),
      ∃ st, simulate_loop "fifo" rnd 4096 1 budget "1000 R\nzz R\n".toList addr0 rw0 (init 1)
          = Outcome.running st ∧ st.access_count = budget) ∧
    (∀ (rnd : Nat → Nat) (addr0 : Nat) (rw0 : Char),
      simulate_loop "fifo" rnd 4096 1 3 "1000 R\n2000".toList addr0 rw0 (init 1)
        = Outcome.reported ⟨[⟨0, 2, 0, 1, 2⟩], 0, 0, 0, 2, 0, 2⟩) := by
  constructor
  · intro rnd budget addr0 rw0
    cases budget with
    | zero => exact ⟨_, rfl, rfl⟩
    | succ b =>
      cases b with
      | zero => exact ⟨⟨[⟨0, 1, 0, 1, 1⟩], 0, 0, 0, 1, 0, 1⟩, rfl, rfl⟩
      | succ b =>
        have hstep : simulate_loop "fifo" rnd 4096 1 (b + 1 + 1) "1000 R\nzz R\n".toList
              addr0 rw0 (init 1)
            = simulate_loop "fifo" rnd 4096 1 b "zz R\n".toList 0x1000 'R'
              ⟨[⟨0, 1, 0, 1, 2⟩], 0, 0, 0, 1, 0, 2⟩ := rfl
        rw [hstep, simulate_loop_stuck]
        exact ⟨_, rfl, by show 2 + b = b + 1 + 1; omega⟩
  · intro rnd addr0 rw0
    rfl

/-! ## Victim selection against its reference definitions -/

/-- C12. For every table of `N ≥ 1` frames (stamps being values of `unsigned long`),
the index `i` returned by `lru_replace` lies in the table, `frames[i].last_access`
is at most `frames[j].last_access` for every `j`, and strictly smaller for every
`j < i`: the arg-min of `last_access` with the lowest index on ties. -/
theorem lru_replace_argmin (frames : List Frame) (n : Nat) (hn : 1 ≤ n)
    (hlen : frames.length = n) (hmax : ∀ g ∈ frames, g.last_access ≤ ULONG_MAX) :
    lru_replace frames n < n ∧
    ∀ j : Nat, j < n →
      stamp frames (lru_replace frames n) ≤ stamp frames j ∧
      (j < lru_replace frames n → stamp frames (lru_replace frames n) < stamp frames j) := by
  refine ⟨lru_replace_lt frames n hn hlen, ?_⟩
  intro j hj
  obtain ⟨f, hf, hmin, hfirst⟩ := lru_replace_min frames n hn hlen hmax
  have hg : frames[j]? = some frames[j] := List.getElem?_eq_getElem (by omega)
  have e1 : stamp frames (lru_replace frames n) = f.last_access := by
    unfold stamp
    rw [hf]
  have e2 : stamp frames j = frames[j].last_access := by
    unfold stamp
    rw [hg]
  rw [e1, e2]
  exact ⟨hmin _ (List.getElem?_mem hg), fun hlt => hfirst j _ hlt hg⟩

theorem lru_replace_argmin_witness :
    (1 ≤ 3 ∧ [(⟨0, 7, 0, 1, 5⟩ : Frame), ⟨0, 8, 1, 1, 2⟩, ⟨0, 9, 0, 1, 2⟩].length = 3 ∧
      ∀ g ∈ [(⟨0, 7, 0, 1, 5⟩ : Frame), ⟨0, 8, 1, 1, 2⟩, ⟨0, 9, 0, 1, 2⟩],
        g.last_access ≤ ULONG_MAX) ∧
    lru_replace [⟨0, 7, 0, 1, 5⟩, ⟨0, 8, 1, 1, 2⟩, ⟨0, 9, 0, 1, 2⟩] 3 = 1 ∧
    (lru_replace [⟨0, 7, 0, 1, 5⟩, ⟨0, 8, 1, 1, 2⟩, ⟨0, 9, 0, 1, 2⟩] 3 < 3 ∧
      ∀ j : Nat, j < 3 →
        stamp [⟨0, 7, 0, 1, 5⟩, ⟨0, 8, 1, 1, 2⟩, ⟨0, 9, 0, 1, 2⟩]
            (lru_replace [⟨0, 7, 0, 1, 5⟩, ⟨0, 8, 1, 1, 2⟩, ⟨0, 9, 0, 1, 2⟩] 3)
          ≤ stamp [⟨0, 7, 0, 1, 5⟩, ⟨0, 8, 1, 1, 2⟩, ⟨0, 9, 0, 1, 2⟩] j ∧
        (j < lru_replace [⟨0, 7, 0, 1, 5⟩, ⟨0, 8, 1, 1, 2⟩, ⟨0, 9, 0, 1, 2⟩] 3 →
          stamp [⟨0, 7, 0, 1, 5⟩, ⟨0, 8, 1, 1, 2⟩, ⟨0, 9, 0, 1, 2⟩]
              (lru_replace [⟨0, 7, 0, 1, 5⟩, ⟨0, 8, 1, 1, 2⟩, ⟨0, 9, 0, 1, 2⟩] 3)
            < stamp [⟨0, 7, 0, 1, 5⟩, ⟨0, 8, 1, 1, 2⟩, ⟨0, 9, 0, 1, 2⟩] j)) :=
  ⟨⟨by decide, by decide, by decide⟩, by decide,
    lru_replace_argmin [⟨0, 7, 0, 1, 5⟩, ⟨0, 8, 1, 1, 2⟩, ⟨0, 9, 0, 1, 2⟩] 3
      (by decide) (by decide) (by decide)⟩

theorem add_mod_cases (c e n : Nat) (hc : c < n) (he : e ≤ n) :
    (c + e < n ∧ (c + e) % n = c + e) ∨ (n ≤ c + e ∧ (c + e) % n = c + e - n) := by
  by_cases h : c + e < n
  · exact Or.inl ⟨h, Nat.mod_eq_of_lt h⟩
  · right
    refine ⟨by omega, ?_⟩
    rw [Nat.mod_eq_sub_mod (by omega), Nat.mod_eq_of_lt (by omega)]

/-- The cyclic run of `d` frames from `c` consists of the frames
`(c + e) mod n` with `e < d`. -/
theorem in_run_iff (n c d j : Nat) (hc : c < n) (hj : j < n) (hd : d ≤ n) :
    in_run n c d j ↔ ∃ e, e < d ∧ j = (c + e) % n := by
  unfold in_run
  constructor
  · rintro (⟨h1, h2⟩ | h)
    · refine ⟨j - c, by omega, ?_⟩
      rw [Nat.add_sub_cancel' h1, Nat.mod_eq_of_lt hj]
    · refine ⟨j + n - c, by omega, ?_⟩
      rw [Nat.add_sub_cancel' (by omega), Nat.add_mod_right, Nat.mod_eq_of_lt hj]
  · rintro ⟨e, he, rfl⟩
    rcases add_mod_cases c e n hc (by omega) with ⟨h1, h2⟩ | ⟨h1, h2⟩ <;> rw [h2] <;> omega

theorem referenced_at_eq {frames : List Frame} {j : Nat} {f : Frame} (h : frames[j]? = some f) :
    referenced_at frames j = f.referenced := by
  unfold referenced_at
  rw [h]

/-- The search of the reference definition finds the least offset with an
unreferenced frame. -/
theorem first_unreferenced_from_spec (frames : List Frame) (n c k d : Nat) :
    d ≤ first_unreferenced_from frames n c k d ∧
    first_unreferenced_from frames n c k d ≤ d + k ∧
    (∀ e, d ≤ e → e < first_unreferenced_from frames n c k d →
      referenced_at frames ((c + e) % n) ≠ 0) ∧
    (first_unreferenced_from frames n c k d < d + k →
      referenced_at frames ((c + first_unreferenced_from frames n c k d) % n) = 0) := by
  induction k generalizing d with
  | zero =>
    unfold first_unreferenced_from
    exact ⟨le_refl _, le_refl _, fun e h1 h2 => by omega, fun h => by omega⟩
  | succ k ih =>
    unfold first_unreferenced_from
    by_cases h0 : referenced_at frames ((c + d) % n) = 0
    · rw [if_pos h0]
      exact ⟨le_refl _, by omega, fun e h1 h2 => by omega, fun _ => h0⟩
    · rw [if_neg h0]
      obtain ⟨h1, h2, h3, h4⟩ := ih (d + 1)
      refine ⟨by omega, by omega, ?_, fun h => h4 (by omega)⟩
      intro e he1 he2
      by_cases hed : e = d
      · rw [hed]; exact h0
      · exact h3 e (by omega) he2

/-- The reference scan distance is at most `n`, every frame before it in scan
order is referenced, and the frame at it is unreferenced unless it is `n`. -/
theorem first_unreferenced_spec (frames : List Frame) (n c : Nat) :
    first_unreferenced frames n c ≤ n ∧
    (∀ e, e < first_unreferenced frames n c → referenced_at frames ((c + e) % n) ≠ 0) ∧
    (first_unreferenced frames n c < n →
      referenced_at frames ((c + first_unreferenced frames n c) % n) = 0) := by
  obtain ⟨_, h2, h3, h4⟩ := first_unreferenced_from_spec frames n c n 0
  unfold first_unreferenced
  exact ⟨by omega, fun e he => h3 e (Nat.zero_le _) he, fun h => h4 (by omega)⟩

/-- With a budget of at most the scan distance the loop has not returned. -/
theorem second_chance_scan_short (n d b : Nat) (frames : List Frame) (c : Nat)
    (hlen : frames.length = n) (hc : c < n) (hd : d ≤ n) (hb : b ≤ d)
    (href : ∀ e, e < d → referenced_at frames ((c + e) % n) ≠ 0) :
    second_chance_scan b frames n c = none := by
  obtain ⟨frames', h, _⟩ := second_chance_scan_skip n b 0 frames c hlen hc (by omega) (by
    intro j f hj hf
    have hjn : j < n := by have := getElem?_lt_length hf; omega
    obtain ⟨e, he, rfl⟩ := (in_run_iff n c b j hc hjn (by omega)).mp hj
    rw [← referenced_at_eq hf]
    exact href e (by omega))
  rw [Nat.zero_add] at h
  rw [h]
  rfl

/-- The loop of `second_chance_replace` returns in iteration `d + 1`, where `d`
is the scan distance: the victim is frame `(c + d) mod n`, exactly the `d`
frames passed over are cleared, and the cursor is left behind the victim. -/
theorem second_chance_scan_exact (n d b : Nat) (frames : List Frame) (c : Nat)
    (hlen : frames.length = n) (hc : c < n) (hd : d ≤ n)
    (href : ∀ e, e < d → referenced_at frames ((c + e) % n) ≠ 0)
    (hstop : d < n → referenced_at frames ((c + d) % n) = 0) :
    ∃ frames', second_chance_scan (b + 1 + d) frames n c
        = some ((c + d) % n, frames', (c + d + 1) % n) ∧
      frames'.length = n ∧
      ∀ j : Nat, (in_run n c d j → frames'[j]? = (frames[j]?).map clear_referenced) ∧
        (¬ in_run n c d j → frames'[j]? = frames[j]?) := by
  obtain ⟨frames', h1, h2, h3⟩ := second_chance_scan_skip n d (b + 1) frames c hlen hc hd (by
    intro j f hj hf
    have hjn : j < n := by have := getElem?_lt_length hf; omega
    obtain ⟨e, he, rfl⟩ := (in_run_iff n c d j hc hjn hd).mp hj
    rw [← referenced_at_eq hf]
    exact href e he)
  refine ⟨frames', ?_, h2, h3⟩
  have hp : (c + d) % n < n := Nat.mod_lt _ (by omega)
  obtain ⟨f, hf⟩ : ∃ f, frames[(c + d) % n]? = some f :=
    ⟨frames[(c + d) % n], List.getElem?_eq_getElem (by omega)⟩
  have hres : ∃ g, frames'[(c + d) % n]? = some g ∧ g.referenced = 0 := by
    by_cases hdn : d < n
    · have hnot : ¬ in_run n c d ((c + d) % n) := by
        unfold in_run
        rcases add_mod_cases c d n hc hd with ⟨_, e⟩ | ⟨_, e⟩ <;> rw [e] <;> omega
      refine ⟨f, by rw [(h3 _).2 hnot, hf], ?_⟩
      rw [← referenced_at_eq hf]
      exact hstop hdn
    · have hin : in_run n c d ((c + d) % n) := by
        unfold in_run
        rcases add_mod_cases c d n hc hd with ⟨_, e⟩ | ⟨_, e⟩ <;> rw [e] <;> omega
      exact ⟨clear_referenced f, by rw [(h3 _).1 hin, hf]; rfl, rfl⟩
  obtain ⟨g, hg, hg0⟩ := hres
  rw [h1]
  unfold second_chance_scan
  rw [hg]
  simp only [hg0, if_true]
  rw [Nat.mod_add_mod]

/-- C13. Second-Chance against its reference definition.  For `N ≥ 1`, a cursor
`c < N` and any table, let `d` be the least offset such that frame `(c + d) mod N`
is unreferenced, or `N` if there is none.  Then `second_chance_replace` returns
`(c + d) mod N`, leaves the cursor at `(c + d + 1) mod N`, clears the referenced
bit of exactly the frames `(c + e) mod N` with `e < d` and leaves every other
frame as it was. -/
theorem second_chance_matches_reference (n c : Nat) (frames : List Frame)
    (_hn : 1 ≤ n) (hlen : frames.length = n) (hc : c < n) :
    ∃ d, d = first_unreferenced frames n c ∧ d ≤ n ∧
      (∀ e, e < d → referenced_at frames ((c + e) % n) ≠ 0) ∧
      (d < n → referenced_at frames ((c + d) % n) = 0) ∧
      ∃ frames', second_chance_replace frames n c
          = some ((c + d) % n, frames', (c + d + 1) % n) ∧
        frames'.length = n ∧
        ∀ j : Nat, j < n →
          ((∃ e, e < d ∧ j = (c + e) % n) →
            frames'[j]? = (frames[j]?).map clear_referenced) ∧
          ((¬ ∃ e, e < d ∧ j = (c + e) % n) → frames'[j]? = frames[j]?) := by
  obtain ⟨hd, href, hstop⟩ := first_unreferenced_spec frames n c
  refine ⟨_, rfl, hd, href, hstop, ?_⟩
  obtain ⟨frames', h1, h2, h3⟩ := second_chance_scan_exact n (first_unreferenced frames n c)
    (n - first_unreferenced frames n c) frames c hlen hc hd href hstop
  refine ⟨frames', ?_, h2, ?_⟩
  · unfold second_chance_replace
    rw [← h1]
    congr 1
    omega
  · intro j hj
    have hiff := in_run_iff n c (first_unreferenced frames n c) j hc hj hd
    exact ⟨fun h => (h3 j).1 (hiff.mpr h), fun h => (h3 j).2 (fun hin => h (hiff.mp hin))⟩

theorem second_chance_matches_reference_witness :
    (1 ≤ 3 ∧ [(⟨0, 7, 0, 1, 1⟩ : Frame), ⟨0, 8, 1, 0, 2⟩, ⟨0, 9, 0, 1, 3⟩].length = 3 ∧
      2 < 3) ∧
    second_chance_replace [⟨0, 7, 0, 1, 1⟩, ⟨0, 8, 1, 0, 2⟩, ⟨0, 9, 0, 1, 3⟩] 3 2
      = some (1, [⟨0, 7, 0, 0, 1⟩, ⟨0, 8, 1, 0, 2⟩, ⟨0, 9, 0, 0, 3⟩], 2) ∧
    ∃ d, d = first_unreferenced [⟨0, 7, 0, 1, 1⟩, ⟨0, 8, 1, 0, 2⟩, ⟨0, 9, 0, 1, 3⟩] 3 2 ∧
      d ≤ 3 ∧
      (∀ e, e < d →
        referenced_at [⟨0, 7, 0, 1, 1⟩, ⟨0, 8, 1, 0, 2⟩, ⟨0, 9, 0, 1, 3⟩] ((2 + e) % 3) ≠ 0) ∧
      (d < 3 →
        referenced_at [⟨0, 7, 0, 1, 1⟩, ⟨0, 8, 1, 0, 2⟩, ⟨0, 9, 0, 1, 3⟩] ((2 + d) % 3) = 0) ∧
      ∃ frames', second_chance_replace [⟨0, 7, 0, 1, 1⟩, ⟨0, 8, 1, 0, 2⟩, ⟨0, 9, 0, 1, 3⟩] 3 2
          = some ((2 + d) % 3, frames', (2 + d + 1) % 3) ∧
        frames'.length = 3 ∧
        ∀ j : Nat, j < 3 →
          ((∃ e, e < d ∧ j = (2 + e) % 3) →
            frames'[j]? = ([(⟨0, 7, 0, 1, 1⟩ : Frame), ⟨0, 8, 1, 0, 2⟩, ⟨0, 9, 0, 1, 3⟩][j]?).map
              clear_referenced) ∧
          ((¬ ∃ e, e < d ∧ j = (2 + e) % 3) →
            frames'[j]? = [(⟨0, 7, 0, 1, 1⟩ : Frame), ⟨0, 8, 1, 0, 2⟩, ⟨0, 9, 0, 1, 3⟩][j]?) :=
  ⟨by decide, by decide,
    second_chance_matches_reference 3 2 [⟨0, 7, 0, 1, 1⟩, ⟨0, 8, 1, 0, 2⟩, ⟨0, 9, 0, 1, 3⟩]
      (by decide) (by decide) (by decide)⟩

/-- C14. Termination bound of Second-Chance.  For `N ≥ 1`, a cursor `c < N` and any
referenced bits, the `while (1)` loop returns in some iteration `k` with
`k ≤ N + 1` (one frame is inspected per iteration) and `k ≤ 2 N`: with a budget
of `k` or more iterations it returns the same result, with fewer it is still
running. -/
theorem second_chance_terminates (n c : Nat) (frames : List Frame)
    (_hn : 1 ≤ n) (hlen : frames.length = n) (hc : c < n) :
    ∃ k, k ≤ n + 1 ∧ k ≤ 2 * n ∧
      (∃ r, second_chance_scan k frames n c = some r ∧
        ∀ b, k ≤ b → second_chance_scan b frames n c = some r) ∧
      ∀ b, b < k → second_chance_scan b frames n c = none := by
  obtain ⟨hd, href, hstop⟩ := first_unreferenced_spec frames n c
  refine ⟨first_unreferenced frames n c + 1, by omega, by omega, ?_, ?_⟩
  · obtain ⟨frames', h1, _⟩ := second_chance_scan_exact n (first_unreferenced frames n c) 0
      frames c hlen hc hd href hstop
    rw [Nat.zero_add, Nat.add_comm] at h1
    refine ⟨_, h1, ?_⟩
    intro b hb
    obtain ⟨e, rfl⟩ : ∃ e, b = first_unreferenced frames n c + 1 + e :=
      ⟨b - (first_unreferenced frames n c + 1), by omega⟩
    exact second_chance_scan_mono n _ e frames c _ h1
  · intro b hb
    exact second_chance_scan_short n (first_unreferenced frames n c) b frames c hlen hc hd
      (by omega) href

theorem second_chance_terminates_witness :
    (1 ≤ 3 ∧ [(⟨0, 7, 0, 1, 1⟩ : Frame), ⟨0, 8, 1, 1, 2⟩, ⟨0, 9, 0, 1, 3⟩].length = 3 ∧
      2 < 3) ∧
    second_chance_scan 3 [⟨0, 7, 0, 1, 1⟩, ⟨0, 8, 1, 1, 2⟩, ⟨0, 9, 0, 1, 3⟩] 3 2 = none ∧
    (second_chance_scan 4 [⟨0, 7, 0, 1, 1⟩, ⟨0, 8, 1, 1, 2⟩, ⟨0, 9, 0, 1, 3⟩] 3 2).isSome
      = true ∧
    ∃ k, k ≤ 3 + 1 ∧ k ≤ 2 * 3 ∧
      (∃ r, second_chance_scan k [⟨0, 7, 0, 1, 1⟩, ⟨0, 8, 1, 1, 2⟩, ⟨0, 9, 0, 1, 3⟩] 3 2
          = some r ∧
        ∀ b, k ≤ b →
          second_chance_scan b [⟨0, 7, 0, 1, 1⟩, ⟨0, 8, 1, 1, 2⟩, ⟨0, 9, 0, 1, 3⟩] 3 2
            = some r) ∧
      ∀ b, b < k →
        second_chance_scan b [⟨0, 7, 0, 1, 1⟩, ⟨0, 8, 1, 1, 2⟩, ⟨0, 9, 0, 1, 3⟩] 3 2 = none :=
  ⟨by decide, by decide, by decide,
    second_chance_terminates 3 2 [⟨0, 7, 0, 1, 1⟩, ⟨0, 8, 1, 1, 2⟩, ⟨0, 9, 0, 1, 3⟩]
      (by decide) (by decide) (by decide)⟩

/-! ## The two transitions of an access -/

theorem resident_of_getElem? {frames : List Frame} {j : Nat} {f : Frame} {page : Nat}
    (hf : frames[j]? = some f) (hp : f.page_number = page) : resident frames page = true := by
  cases h : resident frames page with
  | true => rfl
  | false => exact absurd hp ((resident_false_iff _ _).mp h f (List.getElem?_mem hf))

/-- C15. Hit transition.  When `j` is the lowest index of a frame holding the accessed
page, the access (under every policy) sets `frames[j].last_access` to the new
`access_count` and `frames[j].referenced` to `1`, sets `frames[j].modified` to `1`
for a `'W'` and keeps it otherwise, keeps `frames[j].page_number`, leaves every
other frame, both cursors, `fault_count` and `writeback_count` unchanged and adds
one to `access_count`. -/
theorem hit_transition (alg : String) (rnd : Nat → Nat) (n : Nat) (st : Sim) (page : Nat)
    (rw_char : Char) (j : Nat) (f : Frame) (hf : st.frames[j]? = some f)
    (hp : f.page_number = page)
    (hfirst : ∀ (i : Nat) (g : Frame), i < j → st.frames[i]? = some g → g.page_number ≠ page) :
    ∃ st', access_page alg rnd n st page rw_char = some st' ∧
      st'.frames[j]? = some { f with last_access := st.access_count + 1, referenced := 1,
                                     modified := if rw_char = 'W' then 1 else f.modified } ∧
      (∀ i : Nat, i ≠ j → st'.frames[i]? = st.frames[i]?) ∧
      st'.frames.length = st.frames.length ∧
      st'.next_frame = st.next_frame ∧ st'.pointer = st.pointer ∧
      st'.rand_calls = st.rand_calls ∧
      st'.page_faults = st.page_faults ∧ st'.pages_written = st.pages_written ∧
      st'.access_count = st.access_count + 1 := by
  obtain ⟨frames', hprobe, hacc⟩ :=
    access_page_hit alg rnd n st page rw_char (resident_of_getElem? hf hp)
  obtain ⟨j', f', hf', hp', hfirst', hset⟩ := probe_some_spec _ _ _ _ _ hprobe
  have hj : j' = j := by
    rcases Nat.lt_trichotomy j' j with h | h | h
    · exact absurd hp' (hfirst j' f' h hf')
    · exact h
    · exact absurd hp (hfirst' j f h hf)
  subst hj
  have hff : f' = f := by rw [hf] at hf'; exact (Option.some.inj hf').symm
  subst hff
  refine ⟨_, hacc, ?_, ?_, ?_, rfl, rfl, rfl, rfl, rfl, rfl⟩
  · show frames'[j']? = _
    rw [hset, List.getElem?_set_self (getElem?_lt_length hf)]
  · intro i hi
    show frames'[i]? = _
    rw [hset, List.getElem?_set_ne (fun e => hi e.symm)]
  · show frames'.length = _
    rw [hset, List.length_set]

theorem hit_transition_witness :
    ((⟨[⟨0, 5, 0, 0, 1⟩, ⟨0, 6, 0, 1, 2⟩], 1, 1, 0, 2, 0, 2⟩ : Sim).frames[1]?
        = some ⟨0, 6, 0, 1, 2⟩ ∧
      (⟨0, 6, 0, 1, 2⟩ : Frame).page_number = 6 ∧
      ∀ (i : Nat) (g : Frame), i < 1 →
        (⟨[⟨0, 5, 0, 0, 1⟩, ⟨0, 6, 0, 1, 2⟩], 1, 1, 0, 2, 0, 2⟩ : Sim).frames[i]? = some g →
        g.page_number ≠ 6) ∧
    access_page "2a" (fun _ => 0) 2 ⟨[⟨0, 5, 0, 0, 1⟩, ⟨0, 6, 0, 1, 2⟩], 1, 1, 0, 2, 0, 2⟩ 6 'W'
      = some ⟨[⟨0, 5, 0, 0, 1⟩, ⟨0, 6, 1, 1, 3⟩], 1, 1, 0, 2, 0, 3⟩ ∧
    ∃ st', access_page "2a" (fun _ => 0) 2
        ⟨[⟨0, 5, 0, 0, 1⟩, ⟨0, 6, 0, 1, 2⟩], 1, 1, 0, 2, 0, 2⟩ 6 'W' = some st' ∧
      st'.frames[1]? = some { (⟨0, 6, 0, 1, 2⟩ : Frame) with
        last_access := 2 + 1, referenced := 1,
        modified := if 'W' = 'W' then 1 else (⟨0, 6, 0, 1, 2⟩ : Frame).modified } ∧
      (∀ i : Nat, i ≠ 1 → st'.frames[i]? = [(⟨0, 5, 0, 0, 1⟩ : Frame), ⟨0, 6, 0, 1, 2⟩][i]?) ∧
      st'.frames.length = [(⟨0, 5, 0, 0, 1⟩ : Frame), ⟨0, 6, 0, 1, 2⟩].length ∧
      st'.next_frame = 1 ∧ st'.pointer = 1 ∧ st'.rand_calls = 0 ∧
      st'.page_faults = 2 ∧ st'.pages_written = 0 ∧ st'.access_count = 2 + 1 :=
  have h0 : ∀ (i : Nat) (g : Frame), i < 1 →
      (⟨[⟨0, 5, 0, 0, 1⟩, ⟨0, 6, 0, 1, 2⟩], 1, 1, 0, 2, 0, 2⟩ : Sim).frames[i]? = some g →
      g.page_number ≠ 6 := by
    intro i g hi hg
    have hi0 : i = 0 := by omega
    subst hi0
    have hg' : g = ⟨0, 5, 0, 0, 1⟩ := (Option.some.inj hg).symm
    subst hg'
    decide
  ⟨⟨rfl, rfl, h0⟩, by decide,
    hit_transition "2a" (fun _ => 0) 2 ⟨[⟨0, 5, 0, 0, 1⟩, ⟨0, 6, 0, 1, 2⟩], 1, 1, 0, 2, 0, 2⟩
      6 'W' 1 ⟨0, 6, 0, 1, 2⟩ rfl rfl h0⟩

/-- C16. Miss transition.  When no frame holds the accessed page (state well shaped,
`int` counters below `INT_MAX` so that the increments of lines 120 and 135 do not
overflow, any policy), `fault_count` grows by exactly one, both counters stay at
most `INT_MAX` and, with `v` the index the policy returns, after the access `frames[v]` holds the accessed page with `last_access`
equal to the new `access_count`, `referenced = 1` and `modified = 1` exactly for a
`'W'`; every other frame keeps `page_number`, `modified` and `last_access`; and
the frame scan now finds the page, at index `v`. -/
theorem miss_transition (alg : String) (rnd : Nat → Nat) (n : Nat) (st : Sim) (page : Nat)
    (rw_char : Char) (hok : Sim.ok n st) (hmiss : ∀ g ∈ st.frames, g.page_number ≠ page)
    (hpf : st.page_faults < INT_MAX) (hpw : st.pages_written < INT_MAX) :
    ∃ v st1 st', select_victim alg rnd n st = some (v, st1) ∧ v < n ∧
      access_page alg rnd n st page rw_char = some st' ∧
      st'.page_faults = st.page_faults + 1 ∧ st'.page_faults ≤ INT_MAX ∧
      st'.pages_written ≤ INT_MAX ∧ st'.access_count = st.access_count + 1 ∧
      (∃ f', st'.frames[v]? = some f' ∧ f'.page_number = page ∧
        f'.last_access = st.access_count + 1 ∧ f'.referenced = 1 ∧
        f'.modified = (if rw_char = 'W' then 1 else 0) ∧ (f'.modified = 1 ↔ rw_char = 'W')) ∧
      (∀ (j : Nat) (f : Frame), j ≠ v → st.frames[j]? = some f →
        ∃ f', st'.frames[j]? = some f' ∧ f'.page_number = f.page_number ∧
          f'.modified = f.modified ∧ f'.last_access = f.last_access) ∧
      resident st'.frames page = true ∧
      (∀ (i : Nat) (g : Frame), i < v → st'.frames[i]? = some g → g.page_number ≠ page) := by
  have hres := (resident_false_iff _ _).mpr hmiss
  obtain ⟨v, st1, f, hsel, hv, _, hcl, hf, hacc⟩ :=
    access_page_miss alg rnd n st page rw_char hok hres
  have hvl := getElem?_lt_length hf
  have hnew : (st1.frames.set v
      { f with page_number := page, last_access := st.access_count + 1,
               modified := if rw_char = 'W' then 1 else 0, referenced := 1 })[v]?
      = some { f with page_number := page, last_access := st.access_count + 1,
                      modified := if rw_char = 'W' then 1 else 0, referenced := 1 } :=
    List.getElem?_set_self hvl
  have hothers : ∀ (j : Nat) (f0 : Frame), j ≠ v → st.frames[j]? = some f0 →
      ∃ f', (st1.frames.set v
          { f with page_number := page, last_access := st.access_count + 1,
                   modified := if rw_char = 'W' then 1 else 0, referenced := 1 })[j]? = some f' ∧
        f'.page_number = f0.page_number ∧ f'.modified = f0.modified ∧
        f'.last_access = f0.last_access := by
    intro j f0 hj hf0
    rw [List.getElem?_set_ne (fun e => hj e.symm)]
    rcases hcl.2 j f0 hf0 with h | ⟨_, h⟩
    · exact ⟨f0, h, rfl, rfl, rfl⟩
    · exact ⟨clear_referenced f0, h, rfl, rfl, rfl⟩
  refine ⟨v, st1, _, hsel, hv, hacc, rfl, ?_, ?_, rfl, ⟨_, hnew, rfl, rfl, rfl, rfl, ?_⟩,
    hothers, resident_of_getElem? hnew rfl, ?_⟩
  · show st.page_faults + 1 ≤ INT_MAX
    omega
  · show (if f.modified ≠ 0 then st.pages_written + 1 else st.pages_written) ≤ INT_MAX
    split <;> omega
  · show (if rw_char = 'W' then (1 : Int) else 0) = 1 ↔ rw_char = 'W'
    by_cases hw : rw_char = 'W'
    · simp [hw]
    · simp [hw]
  · intro i g hi hg
    have hiv : i < st.frames.length := by
      have := getElem?_lt_length hg
      rw [List.length_set, hcl.1] at this
      exact this
    obtain ⟨f', hf', hpn, _⟩ := hothers i st.frames[i] (by omega) (List.getElem?_eq_getElem hiv)
    have hg' : (st1.frames.set v
        { f with page_number := page, last_access := st.access_count + 1,
                 modified := if rw_char = 'W' then 1 else 0, referenced := 1 })[i]? = some g := hg
    rw [hf'] at hg'
    rw [← Option.some.inj hg', hpn]
    exact hmiss _ (List.getElem_mem hiv)

theorem miss_transition_witness :
    (Sim.ok 2 ⟨[⟨0, 5, 1, 1, 1⟩, ⟨0, 6, 0, 1, 2⟩], 0, 0, 0, 2, 0, 2⟩ ∧
      (∀ g ∈ (⟨[⟨0, 5, 1, 1, 1⟩, ⟨0, 6, 0, 1, 2⟩], 0, 0, 0, 2, 0, 2⟩ : Sim).frames,
        g.page_number ≠ 7) ∧
      (⟨[⟨0, 5, 1, 1, 1⟩, ⟨0, 6, 0, 1, 2⟩], 0, 0, 0, 2, 0, 2⟩ : Sim).page_faults < INT_MAX ∧
      (⟨[⟨0, 5, 1, 1, 1⟩, ⟨0, 6, 0, 1, 2⟩], 0, 0, 0, 2, 0, 2⟩ : Sim).pages_written
        < INT_MAX) ∧
    access_page "2a" (fun _ => 0) 2 ⟨[⟨0, 5, 1, 1, 1⟩, ⟨0, 6, 0, 1, 2⟩], 0, 0, 0, 2, 0, 2⟩ 7 'R'
      = some ⟨[⟨0, 7, 0, 1, 3⟩, ⟨0, 6, 0, 0, 2⟩], 0, 1, 0, 3, 1, 3⟩ ∧
    ∃ v st1 st', select_victim "2a" (fun _ => 0) 2
        ⟨[⟨0, 5, 1, 1, 1⟩, ⟨0, 6, 0, 1, 2⟩], 0, 0, 0, 2, 0, 2⟩ = some (v, st1) ∧ v < 2 ∧
      access_page "2a" (fun _ => 0) 2 ⟨[⟨0, 5, 1, 1, 1⟩, ⟨0, 6, 0, 1, 2⟩], 0, 0, 0, 2, 0, 2⟩
        7 'R' = some st' ∧
      st'.page_faults = 2 + 1 ∧ st'.page_faults ≤ INT_MAX ∧
      st'.pages_written ≤ INT_MAX ∧ st'.access_count = 2 + 1 ∧
      (∃ f', st'.frames[v]? = some f' ∧ f'.page_number = 7 ∧
        f'.last_access = 2 + 1 ∧ f'.referenced = 1 ∧
        f'.modified = (if 'R' = 'W' then 1 else 0) ∧ (f'.modified = 1 ↔ 'R' = 'W')) ∧
      (∀ (j : Nat) (f : Frame), j ≠ v →
        [(⟨0, 5, 1, 1, 1⟩ : Frame), ⟨0, 6, 0, 1, 2⟩][j]? = some f →
        ∃ f', st'.frames[j]? = some f' ∧ f'.page_number = f.page_number ∧
          f'.modified = f.modified ∧ f'.last_access = f.last_access) ∧
      resident st'.frames 7 = true ∧
      (∀ (i : Nat) (g : Frame), i < v → st'.frames[i]? = some g → g.page_number ≠ 7) :=
  ⟨⟨⟨rfl, by decide, by decide⟩, by decide, by decide, by decide⟩, by decide,
    miss_transition "2a" (fun _ => 0) 2 ⟨[⟨0, 5, 1, 1, 1⟩, ⟨0, 6, 0, 1, 2⟩], 0, 0, 0, 2, 0, 2⟩
      7 'R' ⟨rfl, by decide, by decide⟩ (by decide) (by decide) (by decide)⟩

/-! ## Frame condition of victim selection -/

/-- Whatever the budget, table and cursor: when the Second-Chance loop returns,
it has only cleared referenced bits that were set. -/
theorem second_chance_scan_only_cleared (n budget : Nat) (frames : List Frame) (p : Nat)
    (r : Nat × List Frame × Nat) (h : second_chance_scan budget frames n p = some r) :
    only_cleared frames r.2.1 := by
  induction budget generalizing frames p with
  | zero => simp [second_chance_scan] at h
  | succ b ih =>
    unfold second_chance_scan at h
    cases hf : frames[p]? with
    | none => rw [hf] at h; simp at h
    | some f =>
      rw [hf] at h
      simp only at h
      by_cases hr : f.referenced = 0
      · rw [if_pos hr] at h
        rw [← Option.some.inj h]
        exact only_cleared_refl _
      · rw [if_neg hr] at h
        exact only_cleared_trans (only_cleared_set hf hr) (ih _ _ h)

/-- Under every policy other than `2a` the dispatch hands the table back as it
got it. -/
theorem select_victim_frames (alg : String) (rnd : Nat → Nat) (n : Nat) (st : Sim) (v : Nat)
    (st1 : Sim) (halg : alg ≠ "2a") (h : select_victim alg rnd n st = some (v, st1)) :
    st1.frames = st.frames := by
  unfold select_victim at h
  by_cases h1 : alg = "fifo"
  · rw [if_pos h1] at h
    by_cases hn : n = 0
    · rw [if_pos hn] at h; simp at h
    · rw [if_neg hn] at h
      rw [← (Prod.mk.inj (Option.some.inj h)).2]
  · rw [if_neg h1] at h
    by_cases h2 : alg = "lru"
    · rw [if_pos h2] at h
      rw [← (Prod.mk.inj (Option.some.inj h)).2]
    · rw [if_neg h2, if_neg halg] at h
      by_cases hn : n = 0
      · rw [if_pos hn] at h; simp at h
      · rw [if_neg hn] at h
        rw [← (Prod.mk.inj (Option.some.inj h)).2]

/-- C17. Frame condition of victim selection, for `N ≥ 1` frames and cursors inside
the table.  The policy call returns; under `fifo`, `lru` and random the frame table
is unchanged; under `2a` (and so under every policy) each frame keeps
`frame_number`, `page_number`, `modified` and `last_access`, and its `referenced`
field is either unchanged or goes from non-zero to `0`. -/
theorem victim_selection_frame_condition (alg : String) (rnd : Nat → Nat) (n : Nat) (st : Sim)
    (hok : Sim.ok n st) :
    ∃ v st1, select_victim alg rnd n st = some (v, st1) ∧
      (alg ≠ "2a" → st1.frames = st.frames) ∧
      (alg = "2a" → second_chance_replace st.frames n st.pointer
          = some (v, st1.frames, st1.pointer)) ∧
      st1.frames.length = st.frames.length ∧
      ∀ (j : Nat) (f : Frame), st.frames[j]? = some f →
        ∃ f', st1.frames[j]? = some f' ∧ f'.frame_number = f.frame_number ∧
          f'.page_number = f.page_number ∧ f'.modified = f.modified ∧
          f'.last_access = f.last_access ∧
          (f'.referenced = f.referenced ∨ (f.referenced ≠ 0 ∧ f'.referenced = 0)) := by
  obtain ⟨v, st1, hsel, _, _, hcl, _⟩ := select_victim_spec alg rnd n st hok
  refine ⟨v, st1, hsel, fun halg => select_victim_frames alg rnd n st v st1 halg hsel, ?_,
    hcl.1, ?_⟩
  · intro halg
    subst halg
    have hsel' := hsel
    unfold select_victim at hsel'
    rw [if_neg (by decide), if_neg (by decide), if_pos rfl] at hsel'
    cases hr : second_chance_replace st.frames n st.pointer with
    | none => rw [hr] at hsel'; simp at hsel'
    | some r =>
      obtain ⟨v', frames', c'⟩ := r
      rw [hr] at hsel'
      simp only [Option.some.injEq, Prod.mk.injEq] at hsel'
      obtain ⟨e1, e2⟩ := hsel'
      subst e1
      subst e2
      rfl
  · intro j f hf
    rcases hcl.2 j f hf with h | ⟨hr, h⟩
    · exact ⟨f, h, rfl, rfl, rfl, rfl, Or.inl rfl⟩
    · exact ⟨clear_referenced f, h, rfl, rfl, rfl, rfl, Or.inr ⟨hr, rfl⟩⟩

theorem victim_selection_frame_condition_witness :
    Sim.ok 2 ⟨[⟨0, 5, 1, 1, 1⟩, ⟨0, 6, 0, 0, 2⟩], 0, 0, 0, 2, 0, 2⟩ ∧
    select_victim "2a" (fun _ => 0) 2 ⟨[⟨0, 5, 1, 1, 1⟩, ⟨0, 6, 0, 0, 2⟩], 0, 0, 0, 2, 0, 2⟩
      = some (1, ⟨[⟨0, 5, 1, 0, 1⟩, ⟨0, 6, 0, 0, 2⟩], 0, 0, 0, 2, 0, 2⟩) ∧
    ∃ v st1, select_victim "2a" (fun _ => 0) 2
        ⟨[⟨0, 5, 1, 1, 1⟩, ⟨0, 6, 0, 0, 2⟩], 0, 0, 0, 2, 0, 2⟩ = some (v, st1) ∧
      ("2a" ≠ "2a" → st1.frames = [⟨0, 5, 1, 1, 1⟩, ⟨0, 6, 0, 0, 2⟩]) ∧
      ("2a" = "2a" → second_chance_replace [⟨0, 5, 1, 1, 1⟩, ⟨0, 6, 0, 0, 2⟩] 2 0
          = some (v, st1.frames, st1.pointer)) ∧
      st1.frames.length = [(⟨0, 5, 1, 1, 1⟩ : Frame), ⟨0, 6, 0, 0, 2⟩].length ∧
      ∀ (j : Nat) (f : Frame), [(⟨0, 5, 1, 1, 1⟩ : Frame), ⟨0, 6, 0, 0, 2⟩][j]? = some f →
        ∃ f', st1.frames[j]? = some f' ∧ f'.frame_number = f.frame_number ∧
          f'.page_number = f.page_number ∧ f'.modified = f.modified ∧
          f'.last_access = f.last_access ∧
          (f'.referenced = f.referenced ∨ (f.referenced ≠ 0 ∧ f'.referenced = 0)) :=
  ⟨⟨rfl, by decide, by decide⟩, by decide,
    victim_selection_frame_condition "2a" (fun _ => 0) 2
      ⟨[⟨0, 5, 1, 1, 1⟩, ⟨0, 6, 0, 0, 2⟩], 0, 0, 0, 2, 0, 2⟩ ⟨rfl, by decide, by decide⟩⟩

/-! ## Writeback bound -/

theorem modified_count_set (frames : List Frame) (j : Nat) (f g : Frame)
    (hf : frames[j]? = some f) :
    modified_count (frames.set j g) + (if f.modified ≠ 0 then 1 else 0)
      = modified_count frames + (if g.modified ≠ 0 then 1 else 0) := by
  induction frames generalizing j with
  | nil => simp at hf
  | cons a l ih =>
    cases j with
    | zero =>
      simp only [List.getElem?_cons_zero, Option.some.injEq] at hf
      subst hf
      simp only [List.set_cons_zero, modified_count]
      omega
    | succ j' =>
      simp only [List.getElem?_cons_succ] at hf
      simp only [List.set_cons_succ, modified_count]
      have := ih j' hf
      omega

theorem modified_count_congr (a b : List Frame) (hlen : b.length = a.length)
    (h : ∀ (j : Nat) (f g : Frame), a[j]? = some f → b[j]? = some g → g.modified = f.modified) :
    modified_count b = modified_count a := by
  induction a generalizing b with
  | nil =>
    cases b with
    | nil => rfl
    | cons g b' => simp at hlen
  | cons f a' ih =>
    cases b with
    | nil => simp at hlen
    | cons g b' =>
      simp only [modified_count]
      have h0 : g.modified = f.modified := h 0 f g (by simp) (by simp)
      have := ih b' (by simpa using hlen) (fun j f' g' hf' hg' =>
        h (j + 1) f' g' (by simpa using hf') (by simpa using hg'))
      rw [h0, this]

theorem modified_count_cleared {a b : List Frame} (h : only_cleared a b) :
    modified_count b = modified_count a := by
  apply modified_count_congr a b h.1
  intro j f g hf hg
  rcases h.2 j f hf with h' | ⟨_, h'⟩
  · rw [h'] at hg
    rw [← Option.some.inj hg]
  · rw [h'] at hg
    rw [← Option.some.inj hg]
    rfl

theorem modified_count_replicate (n : Nat) : modified_count (List.replicate n zero_frame) = 0 := by
  induction n with
  | zero => rfl
  | succ k ih =>
    rw [List.replicate_succ, modified_count, ih]
    rfl

/-- One access adds at most one to `writeback_count` plus the number of
modified frames, and only when the operation is `'W'`. -/
theorem access_page_writes (alg : String) (rnd : Nat → Nat) (n : Nat) (st : Sim) (page : Nat)
    (rw_char : Char) (hok : Sim.ok n st) :
    ∃ st', access_page alg rnd n st page rw_char = some st' ∧ Sim.ok n st' ∧
      st'.pages_written + modified_count st'.frames
        ≤ st.pages_written + modified_count st.frames + (if rw_char = 'W' then 1 else 0) := by
  obtain ⟨st', hacc, hok', _⟩ := access_page_counts alg rnd n st page rw_char hok
  refine ⟨st', hacc, hok', ?_⟩
  cases hres : resident st.frames page with
  | true =>
    obtain ⟨frames', hp, hacc2⟩ := access_page_hit alg rnd n st page rw_char hres
    obtain ⟨j, f, hf, _, _, hset⟩ := probe_some_spec _ _ _ _ _ hp
    rw [hacc] at hacc2
    rw [Option.some.inj hacc2]
    show st.pages_written + modified_count frames' ≤ _
    have hc := modified_count_set st.frames j f
      { f with last_access := st.access_count + 1, referenced := 1,
               modified := if rw_char = 'W' then 1 else f.modified } hf
    rw [← hset] at hc
    by_cases hw : rw_char = 'W' <;> by_cases hm : f.modified = 0 <;>
      simp [hw, hm] at hc ⊢ <;> omega
  | false =>
    obtain ⟨v, st1, f, _, _, _, hcl, hf, hacc2⟩ :=
      access_page_miss alg rnd n st page rw_char hok hres
    rw [hacc] at hacc2
    rw [Option.some.inj hacc2]
    show (if f.modified ≠ 0 then st.pages_written + 1 else st.pages_written)
        + modified_count (st1.frames.set v _) ≤ _
    have hc := modified_count_set st1.frames v f
      { f with page_number := page, last_access := st.access_count + 1,
               modified := if rw_char = 'W' then 1 else 0, referenced := 1 } hf
    rw [modified_count_cleared hcl] at hc
    by_cases hw : rw_char = 'W' <;> by_cases hm : f.modified = 0 <;>
      simp [hw, hm] at hc ⊢ <;> omega

theorem run_pages_writes (alg : String) (rnd : Nat → Nat) (n : Nat) (st : Sim)
    (pages : List (Nat × Char)) (hok : Sim.ok n st) :
    ∃ st', run_pages alg rnd n st pages = some st' ∧ Sim.ok n st' ∧
      st'.pages_written + modified_count st'.frames
        ≤ st.pages_written + modified_count st.frames + writes pages := by
  induction pages generalizing st with
  | nil => exact ⟨st, rfl, hok, Nat.le_refl _⟩
  | cons a rest ih =>
    obtain ⟨page, rw_char⟩ := a
    obtain ⟨st1, h1, hok1, hw1⟩ := access_page_writes alg rnd n st page rw_char hok
    obtain ⟨st2, h2, hok2, hw2⟩ := ih st1 hok1
    refine ⟨st2, ?_, hok2, ?_⟩
    · simp only [run_pages, h1]
      exact h2
    · simp only [writes]
      omega

theorem writes_map (page_size : Nat) (trace : List (Nat × Char)) :
    writes (trace.map (fun a => (page_of a.1 page_size, a.2))) = writes trace := by
  induction trace with
  | nil => rfl
  | cons a rest ih => simp only [List.map_cons, writes, ih]

/-- C18. Writeback bound.  For every policy name, random source, page size, `N ≥ 1`
and prefix of a trace, the run returns and `writeback_count` plus the number of
frames whose modified flag is set is at most the number of `'W'` accesses
replayed; so `writeback_count` never exceeds the number of `'W'` accesses, and is
`0` when there is none. -/
theorem writeback_bound (alg : String) (rnd : Nat → Nat) (page_size n : Nat)
    (trace : List (Nat × Char)) (k : Nat) (hn : 1 ≤ n) :
    ∃ st, run alg rnd page_size n (init n) (trace.take k) = some st ∧
      st.pages_written + modified_count st.frames ≤ writes (trace.take k) ∧
      st.pages_written ≤ writes (trace.take k) ∧
      (writes (trace.take k) = 0 → st.pages_written = 0) := by
  obtain ⟨st, h, _, hw⟩ := run_pages_writes alg rnd n (init n)
    ((trace.take k).map (fun a => (page_of a.1 page_size, a.2))) (init_ok n hn)
  rw [writes_map] at hw
  have h0 : (init n).pages_written + modified_count (init n).frames = 0 := by
    show 0 + modified_count (List.replicate n zero_frame) = 0
    rw [modified_count_replicate]
  refine ⟨st, h, by omega, by omega, fun hz => by omega⟩

theorem writeback_bound_witness :
    1 ≤ 2 ∧
    (run "lru" (fun _ => 0) 4096 2 (init 2)
        ([(0x1000, 'W'), (0x2000, 'W'), (0x3000, 'R'), (0x4000, 'R')].take 3)).map
      (fun st => (st.pages_written, modified_count st.frames)) = some (1, 1) ∧
    ∃ st, run "lru" (fun _ => 0) 4096 2 (init 2)
        ([(0x1000, 'W'), (0x2000, 'W'), (0x3000, 'R'), (0x4000, 'R')].take 3) = some st ∧
      st.pages_written + modified_count st.frames
        ≤ writes ([(0x1000, 'W'), (0x2000, 'W'), (0x3000, 'R'), (0x4000, 'R')].take 3) ∧
      st.pages_written
        ≤ writes ([(0x1000, 'W'), (0x2000, 'W'), (0x3000, 'R'), (0x4000, 'R')].take 3) ∧
      (writes ([(0x1000, 'W'), (0x2000, 'W'), (0x3000, 'R'), (0x4000, 'R')].take 3) = 0 →
        st.pages_written = 0) :=
  ⟨by decide, by decide,
    writeback_bound "lru" (fun _ => 0) 4096 2
      [(0x1000, 'W'), (0x2000, 'W'), (0x3000, 'R'), (0x4000, 'R')] 3 (by decide)⟩

/-! ## Stamps are distinct -/

theorem last_pos_from_cases (l : List Nat) (q i acc : Nat) :
    last_pos_from l q i acc = acc ∨
    ∃ k : Nat, l[k]? = some q ∧ last_pos_from l q i acc = i + k := by
  induction l generalizing i acc with
  | nil => exact Or.inl rfl
  | cons a l ih =>
    rw [last_pos_from]
    by_cases haq : a = q
    · rw [if_pos haq]
      rcases ih (i + 1) i with h | ⟨k, hk, h⟩
      · exact Or.inr ⟨0, by simp [haq], by rw [h]; rfl⟩
      · exact Or.inr ⟨k + 1, by simpa using hk, by rw [h]; omega⟩
    · rw [if_neg haq]
      rcases ih (i + 1) acc with h | ⟨k, hk, h⟩
      · exact Or.inl h
      · exact Or.inr ⟨k + 1, by simpa using hk, by rw [h]; omega⟩

/-- A positive position returned by `last_pos` is a position at which the page
was accessed. -/
theorem last_pos_pos (pages : List Nat) (q : Nat) (h : 0 < last_pos pages q) :
    ∃ k : Nat, pages[k]? = some q ∧ last_pos pages q = k + 1 := by
  unfold last_pos at h ⊢
  rcases last_pos_from_cases pages q 1 0 with h0 | ⟨k, hk, h1⟩
  · omega
  · exact ⟨k, hk, by rw [h1]; omega⟩

/-- Consistent stamps: two distinct frames that were loaded or hit hold
different pages and carry different stamps. -/
theorem stamps_ok_distinct (frames : List Frame) (pages : List Nat) (hs : stamps_ok frames pages)
    (i j : Nat) (fi fj : Frame) (hij : i ≠ j) (hi : frames[i]? = some fi)
    (hj : frames[j]? = some fj) (hpi : 0 < fi.last_access) (hpj : 0 < fj.last_access) :
    fi.page_number ≠ fj.page_number ∧ fi.last_access ≠ fj.last_access := by
  obtain ⟨hb, hd, _⟩ := hs
  have hpage : fi.page_number ≠ fj.page_number := by
    intro e
    rcases Nat.lt_or_gt_of_ne hij with h | h
    · have := hb i j fi fj h hi hj e
      omega
    · have := hb j i fj fi h hj hi e.symm
      omega
  refine ⟨hpage, ?_⟩
  intro e
  have h1 := hd i fi hi hpi
  have h2 := hd j fj hj hpj
  obtain ⟨k1, hk1, e1⟩ := last_pos_pos pages fi.page_number (by omega)
  obtain ⟨k2, hk2, e2⟩ := last_pos_pos pages fj.page_number (by omega)
  have hk : k1 = k2 := by omega
  rw [hk, hk2] at hk1
  exact hpage (Option.some.inj hk1).symm

/-- C19. Timestamp and residency invariant.  For every policy name, random source,
page size, `N ≥ 1` and prefix of a trace, the run returns a state in which every
frame has `last_access ≤ access_count` and any two distinct frames with
`last_access > 0` hold different page numbers and have different `last_access`
values; and if the next access counts a page fault, no frame held the page that
is loaded. -/
theorem stamps_and_residency (alg : String) (rnd : Nat → Nat) (page_size n : Nat)
    (trace : List (Nat × Char)) (k addr : Nat) (rw_char : Char) (hn : 1 ≤ n) :
    ∃ st, run alg rnd page_size n (init n) (trace.take k) = some st ∧
      (∀ (j : Nat) (f : Frame), st.frames[j]? = some f → f.last_access ≤ st.access_count) ∧
      (∀ (i j : Nat) (fi fj : Frame), i ≠ j → st.frames[i]? = some fi →
        st.frames[j]? = some fj → 0 < fi.last_access → 0 < fj.last_access →
        fi.page_number ≠ fj.page_number ∧ fi.last_access ≠ fj.last_access) ∧
      ∃ st', access alg rnd page_size n st addr rw_char = some st' ∧
        (st'.page_faults = st.page_faults + 1 →
          ∀ g ∈ st.frames, g.page_number ≠ page_of addr page_size) := by
  obtain ⟨st, hrun, hok, hac, hs⟩ := run_pages_stamps alg rnd n (init n) []
    ((trace.take k).map (fun a => (page_of a.1 page_size, a.2))) (init_ok n hn) rfl
    (stamps_ok_init n)
  refine ⟨st, hrun, ?_, ?_, ?_⟩
  · intro j f hf
    rw [hac]
    exact hs.2.2 j f hf
  · intro i j fi fj hij hi hj hpi hpj
    exact stamps_ok_distinct st.frames _ hs i j fi fj hij hi hj hpi hpj
  · obtain ⟨st', hacc, _, _, hpf⟩ :=
      access_page_counts alg rnd n st (page_of addr page_size) rw_char hok
    refine ⟨st', hacc, ?_⟩
    intro hfault
    apply (resident_false_iff _ _).mp
    cases hres : resident st.frames (page_of addr page_size) with
    | false => rfl
    | true =>
      rw [hres] at hpf
      simp only [if_true] at hpf
      omega

theorem stamps_and_residency_witness :
    1 ≤ 2 ∧
    (run "fifo" (fun _ => 0) 4096 2 (init 2)
        ([(0x1000, 'R'), (0x2000, 'W'), (0x1004, 'R'), (0x3000, 'R')].take 3)).map
      (fun st => (st.frames, st.access_count))
      = some ([⟨0, 1, 0, 1, 3⟩, ⟨0, 2, 1, 1, 2⟩], 3) ∧
    ∃ st, run "fifo" (fun _ => 0) 4096 2 (init 2)
        ([(0x1000, 'R'), (0x2000, 'W'), (0x1004, 'R'), (0x3000, 'R')].take 3) = some st ∧
      (∀ (j : Nat) (f : Frame), st.frames[j]? = some f → f.last_access ≤ st.access_count) ∧
      (∀ (i j : Nat) (fi fj : Frame), i ≠ j → st.frames[i]? = some fi →
        st.frames[j]? = some fj → 0 < fi.last_access → 0 < fj.last_access →
        fi.page_number ≠ fj.page_number ∧ fi.last_access ≠ fj.last_access) ∧
      ∃ st', access "fifo" (fun _ => 0) 4096 2 st 0x3000 'R' = some st' ∧
        (st'.page_faults = st.page_faults + 1 →
          ∀ g ∈ st.frames, g.page_number ≠ page_of 0x3000 4096) :=
  ⟨by decide, by decide,
    stamps_and_residency "fifo" (fun _ => 0) 4096 2
      [(0x1000, 'R'), (0x2000, 'W'), (0x1004, 'R'), (0x3000, 'R')] 3 0x3000 'R' (by decide)⟩

/-! ## FIFO eviction order -/

theorem fault_log_hit (alg : String) (rnd : Nat → Nat) (n : Nat) (st st' : Sim) (page : Nat)
    (rw_char : Char) (rest : List (Nat × Char)) (hres : resident st.frames page = true)
    (hacc : access_page alg rnd n st page rw_char = some st') :
    fault_log alg rnd n st ((page, rw_char) :: rest) = fault_log alg rnd n st' rest := by
  simp only [fault_log, hres, hacc, if_true]

theorem fault_log_miss (alg : String) (rnd : Nat → Nat) (n : Nat) (st st1 st' : Sim)
    (page : Nat) (rw_char : Char) (rest : List (Nat × Char)) (v : Nat) (f : Frame)
    (hres : resident st.frames page = false)
    (hsel : select_victim alg rnd n st = some (v, st1)) (hf : st1.frames[v]? = some f)
    (hacc : access_page alg rnd n st page rw_char = some st') :
    fault_log alg rnd n st ((page, rw_char) :: rest)
      = (v, f.page_number, page) :: fault_log alg rnd n st' rest := by
  simp only [fault_log, hres, hacc, hsel, hf]
  rfl

theorem select_victim_fifo (rnd : Nat → Nat) (n : Nat) (st : Sim) (hn : n ≠ 0) :
    select_victim "fifo" rnd n st
      = some (st.next_frame, { st with next_frame := (st.next_frame + 1) % n }) := by
  unfold select_victim
  rw [if_pos rfl, if_neg hn]
  rfl

theorem mod_ne_of_lt_add (a b n : Nat) (h1 : a < b) (h2 : b < a + n) : a % n ≠ b % n := by
  intro e
  have h := Nat.sub_mod_eq_zero_of_mod_eq e.symm
  rw [Nat.mod_eq_of_lt (by omega)] at h
  omega

/-- A hit keeps a FIFO state consistent with its fault log. -/
theorem fifo_ok_hit (n : Nat) (st : Sim) (log : List (Nat × Nat × Nat)) (frames' : List Frame)
    (ac : Nat) (h : fifo_ok n st log) (hlen : frames'.length = st.frames.length)
    (hpage : ∀ (j : Nat) (f' : Frame), frames'[j]? = some f' →
      ∃ f, st.frames[j]? = some f ∧ f'.page_number = f.page_number) :
    fifo_ok n { st with frames := frames', access_count := ac } log := by
  obtain ⟨hok, hnf, hpf, hv, he, hl⟩ := h
  refine ⟨⟨hlen.trans hok.1, hok.2.1, hok.2.2⟩, hnf, hpf, hv, he, ?_⟩
  intro k e f' hk hle hf'
  obtain ⟨f, hf, e1⟩ := hpage _ f' hf'
  rw [e1]
  exact hl k e f hk hle hf

/-- A fault keeps a FIFO state consistent with its fault log, extended by the
new fault. -/
theorem fifo_ok_miss (n : Nat) (st : Sim) (log : List (Nat × Nat × Nat)) (f g : Frame)
    (pf pw ac : Nat) (h : fifo_ok n st log) (hf : st.frames[st.next_frame]? = some f)
    (hpf : pf = st.page_faults + 1) :
    fifo_ok n { st with next_frame := (st.next_frame + 1) % n
                        frames := st.frames.set st.next_frame g
                        page_faults := pf, pages_written := pw, access_count := ac }
      (log ++ [(st.next_frame, f.page_number, g.page_number)]) := by
  obtain ⟨hok, hnf, hfaults, hv, he, hl⟩ := h
  have hn : 0 < n := by have := hok.2.1; omega
  have hvl := getElem?_lt_length hf
  have hget : ∀ (k : Nat) (e : Nat × Nat × Nat),
      (log ++ [(st.next_frame, f.page_number, g.page_number)])[k]? = some e →
      (k < log.length ∧ log[k]? = some e) ∨
      (k = log.length ∧ e = (st.next_frame, f.page_number, g.page_number)) := by
    intro k e hk
    by_cases hlt : k < log.length
    · rw [List.getElem?_append_left hlt] at hk
      exact Or.inl ⟨hlt, hk⟩
    · have hk2 := hk
      rw [List.getElem?_append_right (by omega)] at hk2
      have : k - log.length = 0 := by
        by_contra hne
        obtain ⟨m, hm⟩ : ∃ m, k - log.length = m + 1 := ⟨k - log.length - 1, by omega⟩
        rw [hm] at hk2
        simp at hk2
      rw [this] at hk2
      simp only [List.getElem?_cons_zero, Option.some.injEq] at hk2
      exact Or.inr ⟨by omega, hk2.symm⟩
  refine ⟨⟨?_, Nat.mod_lt _ hn, hok.2.2⟩, ?_, ?_, ?_, ?_, ?_⟩
  · show (st.frames.set st.next_frame g).length = n
    rw [List.length_set]
    exact hok.1
  · show (st.next_frame + 1) % n = _
    rw [List.length_append, List.length_singleton, hnf, Nat.mod_add_mod]
  · show pf = _
    rw [List.length_append, List.length_singleton, hpf, hfaults]
  · intro k e hk
    rcases hget k e hk with ⟨_, hk'⟩ | ⟨hk', rfl⟩
    · exact hv k e hk'
    · rw [hk']
      exact hnf
  · intro k e e' hk hk'
    rcases hget (k + n) e' hk' with ⟨_, hk2⟩ | ⟨hk2, rfl⟩
    · rcases hget k e hk with ⟨_, hk1⟩ | ⟨hk1, _⟩
      · exact he k e e' hk1 hk2
      · omega
    · rcases hget k e hk with ⟨_, hk1⟩ | ⟨hk1, _⟩
      · have hmod : k % n = st.next_frame := by
          rw [hnf, ← hk2, Nat.add_mod_right]
        exact hl k e f hk1 (by omega) (by rw [hmod]; exact hf)
      · omega
  · intro k e f' hk hle hf'
    rw [List.length_append, List.length_singleton] at hle
    have hf2 : (st.frames.set st.next_frame g)[k % n]? = some f' := hf'
    rcases hget k e hk with ⟨hlt, hk1⟩ | ⟨hk1, rfl⟩
    · have hne : st.next_frame ≠ k % n := by
        rw [hnf]
        exact fun e0 => mod_ne_of_lt_add k log.length n hlt (by omega) e0.symm
      rw [List.getElem?_set_ne hne] at hf2
      exact hl k e f' hk1 (by omega) hf2
    · have hmod : k % n = st.next_frame := by rw [hnf, hk1]
      rw [hmod, List.getElem?_set_self hvl] at hf2
      rw [← Option.some.inj hf2]

theorem access_page_miss_explicit (alg : String) (rnd : Nat → Nat) (n : Nat) (st st1 : Sim)
    (page : Nat) (rw_char : Char) (v : Nat) (f : Frame)
    (hres : resident st.frames page = false)
    (hsel : select_victim alg rnd n st = some (v, st1)) (hf : st1.frames[v]? = some f) :
    access_page alg rnd n st page rw_char
      = some { st1 with
          frames := st1.frames.set v
            { f with page_number := page, last_access := st.access_count + 1,
                     modified := if rw_char = 'W' then 1 else 0, referenced := 1 }
          page_faults := st.page_faults + 1
          pages_written := if f.modified ≠ 0 then st.pages_written + 1 else st.pages_written
          access_count := st.access_count + 1 } := by
  unfold access_page
  simp only [(probe_none_iff _ _ _ _).mpr hres, hsel, hf]

/-- Along a FIFO run the state stays consistent with the fault log. -/
theorem fifo_ok_run (rnd : Nat → Nat) (n : Nat) (st : Sim) (log : List (Nat × Nat × Nat))
    (pages : List (Nat × Char)) (h : fifo_ok n st log) :
    ∃ st', run_pages "fifo" rnd n st pages = some st' ∧
      fifo_ok n st' (log ++ fault_log "fifo" rnd n st pages) := by
  induction pages generalizing st log with
  | nil => exact ⟨st, rfl, by simpa [fault_log] using h⟩
  | cons a rest ih =>
    obtain ⟨page, rw_char⟩ := a
    cases hres : resident st.frames page with
    | true =>
      obtain ⟨frames', hp, hacc⟩ := access_page_hit "fifo" rnd n st page rw_char hres
      obtain ⟨j, f, hf, _, _, hset⟩ := probe_some_spec _ _ _ _ _ hp
      have hok1 := fifo_ok_hit n st log frames' (st.access_count + 1) h
        (by rw [hset, List.length_set]) (by
          intro i f' hf'
          rw [hset] at hf'
          rcases getElem?_set_cases (getElem?_lt_length hf) hf' with ⟨e1, e2⟩ | ⟨_, h2⟩
          · subst e1
            subst e2
            exact ⟨f, hf, rfl⟩
          · exact ⟨f', h2, rfl⟩)
      obtain ⟨st2, h2, hok2⟩ := ih _ log hok1
      refine ⟨st2, ?_, ?_⟩
      · simp only [run_pages, hacc]
        exact h2
      · rw [fault_log_hit "fifo" rnd n st _ page rw_char rest hres hacc]
        exact hok2
    | false =>
      have hn : n ≠ 0 := by have := h.1.2.1; omega
      have hsel := select_victim_fifo rnd n st hn
      have hvl : st.next_frame < st.frames.length := by rw [h.1.1]; exact h.1.2.1
      have hf : st.frames[st.next_frame]? = some st.frames[st.next_frame] :=
        List.getElem?_eq_getElem hvl
      have hacc := access_page_miss_explicit "fifo" rnd n st _ page rw_char _ _ hres hsel hf
      have hok1 := fifo_ok_miss n st log st.frames[st.next_frame]
        { st.frames[st.next_frame] with
            page_number := page, last_access := st.access_count + 1,
            modified := if rw_char = 'W' then 1 else 0, referenced := 1 }
        (st.page_faults + 1)
        (if st.frames[st.next_frame].modified ≠ 0 then st.pages_written + 1
          else st.pages_written)
        (st.access_count + 1) h hf rfl
      obtain ⟨st2, h2, hok2⟩ := ih _ _ hok1
      refine ⟨st2, ?_, ?_⟩
      · simp only [run_pages, hacc]
        exact h2
      · rw [fault_log_miss "fifo" rnd n st _ _ page rw_char rest _ _ hres hsel hf hacc,
          List.append_cons]
        exact hok2

/-- C11. FIFO eviction order.  In every FIFO run with `N ≥ 1` frames from the fresh
state, with `log` the list of its page faults in order: the `(k+1)`-th fault
replaces frame `k mod N`, whatever the frames hold and however many hits lie in
between; the page evicted at fault `k + N` is the page loaded at fault `k`; the
frame of fault `k` is not chosen by the `N - 1` faults in between; and when the
run has at most `INT_MAX` page faults (so that the `int` counter of line 120
never overflows), `fault_count` is the number of faults in the list and at most
`INT_MAX`. -/
theorem fifo_eviction_order (rnd : Nat → Nat) (page_size n : Nat) (trace : List (Nat × Char))
    (hn : 1 ≤ n) :
    ∃ st log, run "fifo" rnd page_size n (init n) trace = some st ∧
      log = fault_log "fifo" rnd n (init n)
        (trace.map (fun a => (page_of a.1 page_size, a.2))) ∧
      (log.length ≤ INT_MAX → log.length = st.page_faults ∧ st.page_faults ≤ INT_MAX) ∧
      (∀ (k : Nat) (e : Nat × Nat × Nat), log[k]? = some e → e.1 = k % n) ∧
      (∀ (k : Nat) (e e' : Nat × Nat × Nat), log[k]? = some e → log[k + n]? = some e' →
        e'.2.1 = e.2.2) ∧
      (∀ (k i : Nat) (e e' : Nat × Nat × Nat), 0 < i → i < n → log[k]? = some e →
        log[k + i]? = some e' → e'.1 ≠ e.1) := by
  have h0 : fifo_ok n (init n) [] := by
    refine ⟨init_ok n hn, ?_, rfl, ?_, ?_, ?_⟩
    · show 0 = 0 % n
      rw [Nat.zero_mod]
    · intro k e hk
      simp at hk
    · intro k e e' hk
      simp at hk
    · intro k e f hk
      simp at hk
  obtain ⟨st, hrun, _, _, hpf, hv, he, _⟩ := fifo_ok_run rnd n (init n) []
    (trace.map (fun a => (page_of a.1 page_size, a.2))) h0
  rw [List.nil_append] at hpf hv he
  refine ⟨st, _, hrun, rfl, fun hle => ⟨hpf.symm, by rw [hpf]; exact hle⟩, hv, he, ?_⟩
  intro k i e e' hi hin hk hk'
  rw [hv k e hk, hv (k + i) e' hk']
  exact fun e0 => mod_ne_of_lt_add k (k + i) n (by omega) (by omega) e0.symm

theorem fifo_eviction_order_witness :
    1 ≤ 2 ∧
    fault_log "fifo" (fun _ => 0) 2 (init 2)
        ([(0x1000, 'R'), (0x2000, 'R'), (0x1000, 'R'), (0x3000, 'R'), (0x4000, 'W')].map
          (fun a => (page_of a.1 4096, a.2)))
      = [(0, 0, 1), (1, 0, 2), (0, 1, 3), (1, 2, 4)] ∧
    (fault_log "fifo" (fun _ => 0) 2 (init 2)
        ([(0x1000, 'R'), (0x2000, 'R'), (0x1000, 'R'), (0x3000, 'R'), (0x4000, 'W')].map
          (fun a => (page_of a.1 4096, a.2)))).length ≤ INT_MAX ∧
    (run "fifo" (fun _ => 0) 4096 2 (init 2)
        [(0x1000, 'R'), (0x2000, 'R'), (0x1000, 'R'), (0x3000, 'R'), (0x4000, 'W')]).map
      (fun st => st.page_faults) = some 4 ∧
    ∃ st log, run "fifo" (fun _ => 0) 4096 2 (init 2)
        [(0x1000, 'R'), (0x2000, 'R'), (0x1000, 'R'), (0x3000, 'R'), (0x4000, 'W')] = some st ∧
      log = fault_log "fifo" (fun _ => 0) 2 (init 2)
        ([(0x1000, 'R'), (0x2000, 'R'), (0x1000, 'R'), (0x3000, 'R'), (0x4000, 'W')].map
          (fun a => (page_of a.1 4096, a.2))) ∧
      (log.length ≤ INT_MAX → log.length = st.page_faults ∧ st.page_faults ≤ INT_MAX) ∧
      (∀ (k : Nat) (e : Nat × Nat × Nat), log[k]? = some e → e.1 = k % 2) ∧
      (∀ (k : Nat) (e e' : Nat × Nat × Nat), log[k]? = some e → log[k + 2]? = some e' →
        e'.2.1 = e.2.2) ∧
      (∀ (k i : Nat) (e e' : Nat × Nat × Nat), 0 < i → i < 2 → log[k]? = some e →
        log[k + i]? = some e' → e'.1 ≠ e.1) :=
  ⟨by decide, by decide, by decide, by decide,
    fifo_eviction_order (fun _ => 0) 4096 2
      [(0x1000, 'R'), (0x2000, 'R'), (0x1000, 'R'), (0x3000, 'R'), (0x4000, 'W')] (by decide)⟩

/-! ## Second-Chance and FIFO on a trace without hits -/

theorem select_victim_2a (rnd : Nat → Nat) (n : Nat) (st : Sim) (v : Nat)
    (frames' : List Frame) (c' : Nat)
    (h : second_chance_replace st.frames n st.pointer = some (v, frames', c')) :
    select_victim "2a" rnd n st = some (v, { st with frames := frames', pointer := c' }) := by
  unfold select_victim
  rw [if_neg (by decide), if_neg (by decide), if_pos rfl, h]

/-- Second-Chance with the cursor at `q mod n`, the frames below `q` referenced
and the others not: the victim is the frame at the cursor, and the table is
unchanged (`q < n`) or has all referenced bits cleared (`q = n`). -/
theorem second_chance_replace_at_cursor (n q : Nat) (frames : List Frame) (hn : 1 ≤ n)
    (hlen : frames.length = n) (hq : q ≤ n)
    (href : ∀ (j : Nat) (g : Frame), frames[j]? = some g →
      (j < q → g.referenced ≠ 0) ∧ (q ≤ j → g.referenced = 0)) :
    ∃ frames', second_chance_replace frames n (q % n)
        = some (q % n, frames', (q % n + 1) % n) ∧
      (q < n → frames' = frames) ∧ (q = n → frames' = frames.map clear_referenced) := by
  have hc : q % n < n := Nat.mod_lt _ (by omega)
  by_cases hlt : q < n
  · have hqc : q % n = q := Nat.mod_eq_of_lt hlt
    obtain ⟨frames', h1, h2, h3⟩ := second_chance_scan_exact n 0 n frames (q % n) hlen hc
      (Nat.zero_le _) (fun e he => by omega) (by
        intro _
        rw [Nat.add_zero, Nat.mod_mod, hqc]
        have hg : frames[q]? = some frames[q] := List.getElem?_eq_getElem (by omega)
        rw [referenced_at_eq hg]
        exact (href q _ hg).2 (le_refl _))
    have hfr : frames' = frames := by
      apply List.ext_getElem?
      intro j
      exact (h3 j).2 (by unfold in_run; omega)
    rw [hqc] at h1 ⊢
    simp only [Nat.add_zero] at h1
    rw [hqc] at h1
    exact ⟨frames', h1, fun _ => hfr, fun e => by omega⟩
  · have hqn : q = n := by omega
    have hqc : q % n = 0 := by rw [hqn, Nat.mod_self]
    obtain ⟨frames', h1, h2, h3⟩ := second_chance_scan_exact n n 0 frames (q % n) hlen hc
      (le_refl _) (by
        intro e he
        rw [hqc, Nat.zero_add, Nat.mod_eq_of_lt he]
        have hg : frames[e]? = some frames[e] := List.getElem?_eq_getElem (by omega)
        rw [referenced_at_eq hg]
        exact (href e _ hg).1 (by omega)) (fun h => by omega)
    have hfr : frames' = frames.map clear_referenced := by
      apply List.ext_getElem?
      intro j
      rw [List.getElem?_map]
      by_cases hj : j < n
      · exact (h3 j).1 (by unfold in_run; omega)
      · rw [List.getElem?_eq_none (by omega), List.getElem?_eq_none (by omega)]
        rfl
    refine ⟨frames', ?_, fun h => by omega, fun _ => hfr⟩
    unfold second_chance_replace
    rw [show n + 1 = 0 + 1 + n by omega, h1, Nat.add_mod_right, Nat.mod_mod,
      Nat.add_assoc, Nat.add_comm n 1, ← Nat.add_assoc, Nat.add_mod_right]

/-- One faulting access keeps a FIFO state and a Second-Chance state in
lockstep: both choose the frame at the common cursor and log the same fault. -/
theorem lockstep_step (rnd rnd' : Nat → Nat) (n : Nat) (sf ss : Sim) (page : Nat)
    (rw_char : Char) (h : lockstep n sf ss) (hmiss : ∀ g ∈ sf.frames, g.page_number ≠ page) :
    ∃ sf' ss' e, access_page "fifo" rnd n sf page rw_char = some sf' ∧
      access_page "2a" rnd' n ss page rw_char = some ss' ∧ lockstep n sf' ss' ∧
      (∀ rest, fault_log "fifo" rnd n sf ((page, rw_char) :: rest)
        = e :: fault_log "fifo" rnd n sf' rest) ∧
      (∀ rest, fault_log "2a" rnd' n ss ((page, rw_char) :: rest)
        = e :: fault_log "2a" rnd' n ss' rest) ∧
      (∀ g ∈ sf'.frames, g.page_number = page ∨ g ∈ sf.frames) ∧
      sf'.page_faults = sf.page_faults + 1 := by
  obtain ⟨hokf, hoks, hcur, hpf, hpw, hac, hfr, q, hq, hptr, href⟩ := h
  have hn : 1 ≤ n := by have := hokf.2.1; omega
  have hn0 : n ≠ 0 := by omega
  have hresf := (resident_false_iff _ _).mpr hmiss
  have hcf : sf.next_frame < sf.frames.length := by rw [hokf.1]; exact hokf.2.1
  have hf : sf.frames[sf.next_frame]? = some sf.frames[sf.next_frame] :=
    List.getElem?_eq_getElem hcf
  have hself := select_victim_fifo rnd n sf hn0
  have haccf := access_page_miss_explicit "fifo" rnd n sf _ page rw_char _ _ hresf hself hf
  have hmiss_s : ∀ g ∈ ss.frames, g.page_number ≠ page := by
    intro g hg
    obtain ⟨j, hj⟩ := List.mem_iff_getElem?.mp hg
    have hjl : j < sf.frames.length := by
      rw [hokf.1, ← hoks.1]
      exact getElem?_lt_length hj
    have hfj : sf.frames[j]? = some sf.frames[j] := List.getElem?_eq_getElem hjl
    rw [← (hfr j _ g hfj hj).1]
    exact hmiss _ (List.getElem?_mem hfj)
  have hress := (resident_false_iff _ _).mpr hmiss_s
  obtain ⟨frames', hrep, hlt, heq⟩ :=
    second_chance_replace_at_cursor n q ss.frames hn hoks.1 hq href
  rw [← hptr] at hrep
  have hcl : only_cleared ss.frames frames' :=
    second_chance_scan_only_cleared n (n + 1) ss.frames ss.pointer _ hrep
  have hsels := select_victim_2a rnd' n ss _ _ _ hrep
  have hcs : ss.pointer < frames'.length := by rw [hcl.1, hoks.1]; exact hoks.2.2
  have hg : frames'[ss.pointer]? = some frames'[ss.pointer] := List.getElem?_eq_getElem hcs
  have haccs := access_page_miss_explicit "2a" rnd' n ss _ page rw_char _ _ hress hsels hg
  obtain ⟨g0, hg0, hgp, hgm, _, _⟩ := only_cleared_fields hcl hg
  have hrel := hfr sf.next_frame _ g0 hf (by rw [hcur]; exact hg0)
  refine ⟨_, _, (sf.next_frame, sf.frames[sf.next_frame].page_number, page), haccf, haccs,
    ⟨⟨?_, Nat.mod_lt _ (by omega), hokf.2.2⟩, ⟨?_, hoks.2.1, Nat.mod_lt _ (by omega)⟩, ?_, ?_,
      ?_, ?_, ?_, ?_⟩, ?_, ?_, ?_, rfl⟩
  · show (sf.frames.set sf.next_frame _).length = n
    rw [List.length_set]
    exact hokf.1
  · show (frames'.set ss.pointer _).length = n
    rw [List.length_set, hcl.1]
    exact hoks.1
  · show (sf.next_frame + 1) % n = (ss.pointer + 1) % n
    rw [hcur]
  · show sf.page_faults + 1 = ss.page_faults + 1
    rw [hpf]
  · show (if sf.frames[sf.next_frame].modified ≠ 0 then sf.pages_written + 1
        else sf.pages_written)
      = (if frames'[ss.pointer].modified ≠ 0 then ss.pages_written + 1 else ss.pages_written)
    rw [hgm, ← hrel.2.1, hpw]
  · show sf.access_count + 1 = ss.access_count + 1
    rw [hac]
  · intro j a b ha hb
    have ha' : (sf.frames.set sf.next_frame
        { sf.frames[sf.next_frame] with
            page_number := page, last_access := sf.access_count + 1,
            modified := if rw_char = 'W' then 1 else 0, referenced := 1 })[j]? = some a := ha
    have hb' : (frames'.set ss.pointer
        { frames'[ss.pointer] with
            page_number := page, last_access := ss.access_count + 1,
            modified := if rw_char = 'W' then 1 else 0, referenced := 1 })[j]? = some b := hb
    rcases getElem?_set_cases hcf ha' with ⟨e1, e2⟩ | ⟨e1, ha2⟩ <;>
      rcases getElem?_set_cases hcs hb' with ⟨e3, e4⟩ | ⟨e3, hb2⟩
    · rw [e2, e4]
      exact ⟨rfl, rfl, by show sf.access_count + 1 = ss.access_count + 1; rw [hac]⟩
    · exact absurd (e1.trans hcur) e3
    · exact absurd (e3.trans hcur.symm) e1
    · obtain ⟨b0, hb0, p1, p2, p3, _⟩ := only_cleared_fields hcl hb2
      rw [p1, p2, p3]
      exact hfr j a b0 ha2 hb0
  · by_cases hqn : q < n
    · have hp : ss.pointer = q := by rw [hptr, Nat.mod_eq_of_lt hqn]
      have hfe := hlt hqn
      refine ⟨q + 1, by omega, by show (ss.pointer + 1) % n = _; rw [hp], ?_⟩
      intro j b hb
      have hb' : (frames'.set ss.pointer
          { frames'[ss.pointer] with
              page_number := page, last_access := ss.access_count + 1,
              modified := if rw_char = 'W' then 1 else 0, referenced := 1 })[j]? = some b := hb
      rcases getElem?_set_cases hcs hb' with ⟨e3, e4⟩ | ⟨e3, hb2⟩
      · rw [e4]
        exact ⟨fun _ => by show (1 : Int) ≠ 0; decide, fun hle => by omega⟩
      · rw [hfe] at hb2
        have := href j b hb2
        exact ⟨fun hj => this.1 (by omega), fun hj => this.2 (by omega)⟩
    · have hqe : q = n := by omega
      have hp : ss.pointer = 0 := by rw [hptr, hqe, Nat.mod_self]
      have hfe := heq hqe
      refine ⟨1, hn, by show (ss.pointer + 1) % n = _; rw [hp], ?_⟩
      intro j b hb
      have hb' : (frames'.set ss.pointer
          { frames'[ss.pointer] with
              page_number := page, last_access := ss.access_count + 1,
              modified := if rw_char = 'W' then 1 else 0, referenced := 1 })[j]? = some b := hb
      rcases getElem?_set_cases hcs hb' with ⟨e3, e4⟩ | ⟨e3, hb2⟩
      · rw [e4]
        exact ⟨fun _ => by show (1 : Int) ≠ 0; decide, fun hle => by omega⟩
      · rw [hfe, List.getElem?_map] at hb2
        cases hs : ss.frames[j]? with
        | none => rw [hs] at hb2; simp at hb2
        | some b0 =>
          rw [hs] at hb2
          have hbe : b = clear_referenced b0 := (Option.some.inj hb2).symm
          rw [hbe]
          exact ⟨fun hj => by omega, fun _ => rfl⟩
  · intro rest
    exact fault_log_miss "fifo" rnd n sf _ _ page rw_char rest _ _ hresf hself hf haccf
  · intro rest
    have hentry : (ss.pointer, frames'[ss.pointer].page_number, page)
        = (sf.next_frame, sf.frames[sf.next_frame].page_number, page) := by
      rw [Prod.mk.injEq, Prod.mk.injEq]
      exact ⟨hcur.symm, hgp.trans hrel.1.symm, rfl⟩
    rw [fault_log_miss "2a" rnd' n ss _ _ page rw_char rest _ _ hress hsels hg haccs, hentry]
  · intro g hgm
    have hgm' : g ∈ sf.frames.set sf.next_frame
        { sf.frames[sf.next_frame] with
            page_number := page, last_access := sf.access_count + 1,
            modified := if rw_char = 'W' then 1 else 0, referenced := 1 } := hgm
    obtain ⟨j, hj⟩ := List.mem_iff_getElem?.mp hgm'
    rcases getElem?_set_cases hcf hj with ⟨_, e2⟩ | ⟨_, h2⟩
    · left
      rw [e2]
    · right
      exact List.getElem?_mem h2

/-- Along a trace whose pages are pairwise distinct and held by no frame, FIFO
and Second-Chance stay in lockstep and log the same faults, one per access. -/
theorem lockstep_run (rnd rnd' : Nat → Nat) (n : Nat) (sf ss : Sim) (pages : List (Nat × Char))
    (h : lockstep n sf ss) (hnodup : (pages.map Prod.fst).Nodup)
    (hfresh : ∀ a ∈ pages, ∀ g ∈ sf.frames, g.page_number ≠ a.1) :
    ∃ sf' ss', run_pages "fifo" rnd n sf pages = some sf' ∧
      run_pages "2a" rnd' n ss pages = some ss' ∧ lockstep n sf' ss' ∧
      fault_log "2a" rnd' n ss pages = fault_log "fifo" rnd n sf pages ∧
      (fault_log "fifo" rnd n sf pages).length = pages.length ∧
      sf'.page_faults = sf.page_faults + pages.length := by
  induction pages generalizing sf ss with
  | nil => exact ⟨sf, ss, rfl, rfl, h, rfl, rfl, rfl⟩
  | cons a rest ih =>
    obtain ⟨page, rw_char⟩ := a
    rw [List.map_cons, List.nodup_cons] at hnodup
    obtain ⟨sf1, ss1, e, hf1, hs1, hl1, hlogf, hlogs, hmem, hpf1⟩ :=
      lockstep_step rnd rnd' n sf ss page rw_char h
        (fun g hg => hfresh (page, rw_char) (List.mem_cons_self _ _) g hg)
    obtain ⟨sf2, ss2, hf2, hs2, hl2, hlog, hlen, hpf2⟩ := ih sf1 ss1 hl1 hnodup.2 (by
      intro a ha g hg
      rcases hmem g hg with hp | hold
      · rw [hp]
        intro e0
        exact hnodup.1 (List.mem_map.mpr ⟨a, ha, e0.symm⟩)
      · exact hfresh a (List.mem_cons_of_mem _ ha) g hold)
    refine ⟨sf2, ss2, ?_, ?_, hl2, ?_, ?_, ?_⟩
    · simp only [run_pages, hf1]
      exact hf2
    · simp only [run_pages, hs1]
      exact hs2
    · rw [hlogf rest, hlogs rest, hlog]
    · rw [hlogf rest, List.length_cons, List.length_cons, hlen]
    · rw [hpf2, hpf1, List.length_cons]
      omega

theorem lockstep_init (n : Nat) (hn : 1 ≤ n) : lockstep n (init n) (init n) := by
  refine ⟨init_ok n hn, init_ok n hn, rfl, rfl, rfl, rfl, ?_, 0, Nat.zero_le _, ?_, ?_⟩
  · intro j f g hf hg
    rw [hf] at hg
    rw [Option.some.inj hg]
    exact ⟨rfl, rfl, rfl⟩
  · show 0 = 0 % n
    rw [Nat.zero_mod]
  · intro j g hg
    have hz : g = zero_frame := List.eq_of_mem_replicate (List.getElem?_mem hg)
    rw [hz]
    exact ⟨fun hj => by omega, fun _ => rfl⟩

/-- C20. Second-Chance and FIFO without hits.  For `N ≥ 1` and a trace whose page
numbers are pairwise distinct and all non-zero, the runs under `fifo` and under
`2a` from the fresh state both return; every access is a page fault; both runs
log the same faults (same victim index, same evicted page, same loaded page at
every access); and they end with the same `fault_count`, the same
`writeback_count` and the same `page_number`, `modified` and `last_access` in
every frame. -/
theorem second_chance_equals_fifo_without_hits (rnd rnd' : Nat → Nat) (page_size n : Nat)
    (trace : List (Nat × Char)) (hn : 1 ≤ n)
    (hdistinct : (trace.map (fun a => page_of a.1 page_size)).Nodup)
    (hnonzero : ∀ a ∈ trace, page_of a.1 page_size ≠ 0) :
    ∃ sf ss, run "fifo" rnd page_size n (init n) trace = some sf ∧
      run "2a" rnd' page_size n (init n) trace = some ss ∧
      fault_log "2a" rnd' n (init n) (trace.map (fun a => (page_of a.1 page_size, a.2)))
        = fault_log "fifo" rnd n (init n) (trace.map (fun a => (page_of a.1 page_size, a.2))) ∧
      (fault_log "fifo" rnd n (init n)
        (trace.map (fun a => (page_of a.1 page_size, a.2)))).length = trace.length ∧
      sf.page_faults = trace.length ∧
      sf.page_faults = ss.page_faults ∧ sf.pages_written = ss.pages_written ∧
      sf.frames.length = ss.frames.length ∧
      ∀ (j : Nat) (f g : Frame), sf.frames[j]? = some f → ss.frames[j]? = some g →
        f.page_number = g.page_number ∧ f.modified = g.modified ∧
          f.last_access = g.last_access := by
  have hmap : (trace.map (fun a => (page_of a.1 page_size, a.2))).map Prod.fst
      = trace.map (fun a => page_of a.1 page_size) := by
    rw [List.map_map]
    rfl
  obtain ⟨sf, ss, hf, hs, hl, hlog, hlen, hfaults⟩ := lockstep_run rnd rnd' n (init n) (init n)
    (trace.map (fun a => (page_of a.1 page_size, a.2))) (lockstep_init n hn)
    (by rw [hmap]; exact hdistinct) (by
      intro a ha g hg
      obtain ⟨b, hb, rfl⟩ := List.mem_map.mp ha
      have hz : g = zero_frame := List.eq_of_mem_replicate hg
      rw [hz]
      exact fun e0 => hnonzero b hb e0.symm)
  rw [List.length_map] at hlen hfaults
  obtain ⟨hokf, hoks, _, hpf, hpw, _, hfr, _⟩ := hl
  refine ⟨sf, ss, hf, hs, hlog, hlen, ?_, hpf, hpw, by rw [hokf.1, hoks.1], hfr⟩
  rw [hfaults]
  show 0 + trace.length = trace.length
  omega

theorem second_chance_equals_fifo_without_hits_witness :
    (1 ≤ 2 ∧
      ([(0x1000, 'W'), (0x2000, 'R'), (0x3000, 'R'), (0x4000, 'W'), (0x5000, 'R')].map
        (fun a => page_of a.1 4096)).Nodup ∧
      ∀ a ∈ [(0x1000, 'W'), (0x2000, 'R'), (0x3000, 'R'), (0x4000, 'W'), (0x5000, 'R')],
        page_of a.1 4096 ≠ 0) ∧
    fault_log "2a" (fun _ => 1) 2 (init 2)
        ([(0x1000, 'W'), (0x2000, 'R'), (0x3000, 'R'), (0x4000, 'W'), (0x5000, 'R')].map
          (fun a => (page_of a.1 4096, a.2)))
      = [(0, 0, 1), (1, 0, 2), (0, 1, 3), (1, 2, 4), (0, 3, 5)] ∧
    ∃ sf ss, run "fifo" (fun _ => 0) 4096 2 (init 2)
        [(0x1000, 'W'), (0x2000, 'R'), (0x3000, 'R'), (0x4000, 'W'), (0x5000, 'R')] = some sf ∧
      run "2a" (fun _ => 1) 4096 2 (init 2)
        [(0x1000, 'W'), (0x2000, 'R'), (0x3000, 'R'), (0x4000, 'W'), (0x5000, 'R')] = some ss ∧
      fault_log "2a" (fun _ => 1) 2 (init 2)
          ([(0x1000, 'W'), (0x2000, 'R'), (0x3000, 'R'), (0x4000, 'W'), (0x5000, 'R')].map
            (fun a => (page_of a.1 4096, a.2)))
        = fault_log "fifo" (fun _ => 0) 2 (init 2)
          ([(0x1000, 'W'), (0x2000, 'R'), (0x3000, 'R'), (0x4000, 'W'), (0x5000, 'R')].map
            (fun a => (page_of a.1 4096, a.2))) ∧
      (fault_log "fifo" (fun _ => 0) 2 (init 2)
        ([(0x1000, 'W'), (0x2000, 'R'), (0x3000, 'R'), (0x4000, 'W'), (0x5000, 'R')].map
          (fun a => (page_of a.1 4096, a.2)))).length
        = [(0x1000, 'W'), (0x2000, 'R'), (0x3000, 'R'), (0x4000, 'W'), (0x5000, 'R')].length ∧
      sf.page_faults
        = [(0x1000, 'W'), (0x2000, 'R'), (0x3000, 'R'), (0x4000, 'W'), (0x5000, 'R')].length ∧
      sf.page_faults = ss.page_faults ∧ sf.pages_written = ss.pages_written ∧
      sf.frames.length = ss.frames.length ∧
      ∀ (j : Nat) (f g : Frame), sf.frames[j]? = some f → ss.frames[j]? = some g →
        f.page_number = g.page_number ∧ f.modified = g.modified ∧
          f.last_access = g.last_access :=
  ⟨⟨by decide, by decide, by decide⟩, by decide,
    second_chance_equals_fifo_without_hits (fun _ => 0) (fun _ => 1) 4096 2
      [(0x1000, 'W'), (0x2000, 'R'), (0x3000, 'R'), (0x4000, 'W'), (0x5000, 'R')]
      (by decide) (by decide) (by decide)⟩

end PageSim
